import Mathlib

/-!
# Verification of the zxing-go packed-bit containers

Shallow embedding of `core/common/bit_matrix.go` (the `BitArray` and
`BitMatrix` types) and of the `internal` word-buffer helpers of the
zxing-go repository, together with proofs and refutations of the stated
properties of these containers.

Modelling conventions:
* Go `uint32` words are `Nat` values kept below `2^32`; wrap-around in Go
  (shifts by 32 or more, unsigned subtraction) is made explicit with
  `% 4294967296` at the places the Go code relies on it.
* Go slices are `List Nat`; reads use `getD` (all reads performed by the
  embedded code on well-formed values are in range; the one routine whose
  out-of-range behaviour matters, `BitArray.Equals`, is embedded with an
  explicit bounds check that returns `none` to model the Go runtime panic).
* Fallible Go functions returning `error` are embedded in `Except String`.
* Go `for` loops whose counters are bounded become structural or
  well-founded recursion; the two bit-scan loops of the Go code terminate
  only when the scanned word is nonzero, so their embeddings carry fuel
  (32 steps, enough for every terminating Go execution).
-/

set_option maxRecDepth 10000

namespace ZXing

/-- `2^32`, the modulus of Go `uint32` arithmetic. -/
def W32 : Nat := 4294967296

/-- Bitwise complement of a 32-bit word (Go `^x` on `uint32`). -/
def compl32 (x : Nat) : Nat := x ^^^ 4294967295

/-- Go `bits.TrailingZeros32`: index of the least-significant set bit,
32 when the word is zero. -/
def trailingZeros32 (v : Nat) : Nat :=
  (((List.range 32).find? (fun b => v.testBit b)).getD 32)

/-- The forward bit-scan loop `bit := 0; for theBits<<(31-bit) == 0 { bit++ }`
used by `GetEnclosingRectangle` and `GetTopLeftOnBit`.  The Go loop
terminates exactly when `theBits ≠ 0`; the fuel (32) covers every
terminating execution. -/
def lowBitScanAux (theBits : Nat) : Nat → Nat → Nat
  | 0, bit => bit
  | fuel + 1, bit =>
    if (theBits <<< (31 - bit)) % W32 = 0 then lowBitScanAux theBits fuel (bit + 1) else bit

def lowBitScan (theBits : Nat) : Nat := lowBitScanAux theBits 32 0

/-- The backward bit-scan loop `bit := 31; for theBits>>bit == 0 { bit-- }`
used by `GetEnclosingRectangle` and `GetBottomRightOnBit`.  The Go loop
terminates exactly when `theBits ≠ 0`; the fuel covers every terminating
execution. -/
def highBitScanAux (theBits : Nat) : Nat → Nat → Nat
  | 0, bit => bit
  | fuel + 1, bit =>
    if theBits >>> bit = 0 then highBitScanAux theBits fuel (bit - 1) else bit

def highBitScan (theBits : Nat) : Nat := highBitScanAux theBits 32 31

/-- `internal.SliceCopyU32` (word-buffer helper): bounds-checked bulk copy
mimicking `System.arraycopy`.  The Go `nil` checks have no counterpart for
Lean lists and are dropped; every call site passes non-nil slices. -/
def SliceCopyU32 (src dest : List Nat) (srcPos destPos length : Int) :
    Except String (List Nat) :=
  if srcPos < 0 ∨ destPos < 0 then
    .error "srcPos and destPos must both be positive"
  else if length < 0 then
    .error "length must be positive"
  else if (src.length : Int) < srcPos + length then
    .error "srcPos + length is larger than the length of src"
  else if (dest.length : Int) < destPos + length then
    .error "destPos + length is larger than the length of dest"
  else
    .ok ((List.range length.toNat).foldl
      (fun d i => d.set (destPos.toNat + i) (src.getD (srcPos.toNat + i) 0)) dest)

/-- The `BitArray` structure: a growable word-backed bit vector. -/
structure BitArray where
  bits : List Nat
  size : Nat
deriving DecidableEq

/-- `NewBitArray`. -/
def NewBitArray (size : Nat) : BitArray :=
  ⟨List.replicate ((size + 31) / 32) 0, size⟩

namespace BitArray

/-- `BitArray.Get`. -/
def Get (ba : BitArray) (i : Nat) : Bool :=
  ba.bits.getD (i / 32) 0 &&& (1 <<< (i % 32)) != 0

/-- `BitArray.Set`. -/
def Set (ba : BitArray) (i : Nat) : BitArray :=
  { ba with bits := ba.bits.set (i / 32) (ba.bits.getD (i / 32) 0 ||| (1 <<< (i % 32))) }

/-- `BitArray.SetBulk`. -/
def SetBulk (ba : BitArray) (i newBits : Nat) : BitArray :=
  { ba with bits := ba.bits.set (i / 32) newBits }

/-- `BitArray.Clear`: zeroes every word, keeping the buffer length. -/
def Clear (ba : BitArray) : BitArray :=
  { ba with bits := ba.bits.map (fun _ => 0) }

/-- `BitArray.EnsureCapacity`.  Note the Go code allocates `size` *words*
(`make([]uint32, size)`), not `⌈size/32⌉`; the embedding reproduces that. -/
def EnsureCapacity (ba : BitArray) (size : Nat) : BitArray :=
  if size > ba.bits.length * 32 then
    { ba with bits := ba.bits ++ List.replicate (size - ba.bits.length) 0 }
  else ba

/-- `BitArray.AppendBit`. -/
def AppendBit (ba : BitArray) (bit : Bool) : BitArray :=
  let ba := ba.EnsureCapacity (ba.size + 1)
  let ba :=
    if bit then
      let w := ba.bits.getD (ba.size / 32) 0 ||| (1 <<< (ba.size % 32))
      { ba with bits := ba.bits.set (ba.size / 32) w }
    else ba
  { ba with size := ba.size + 1 }

/-- The word-scan loop of `GetNextUnset`.  The fuel is the buffer length,
which bounds the number of iterations of the Go loop. -/
def GetNextUnsetLoop (ba : BitArray) : Nat → Nat → Nat → Nat
  | fuel, bitsOffset, currentBits =>
    if currentBits ≠ 0 then
      let result := bitsOffset * 32 + trailingZeros32 currentBits
      if result > ba.size then ba.size else result
    else
      match fuel with
      | 0 => ba.size
      | fuel + 1 =>
        let bo := bitsOffset + 1
        if bo = ba.bits.length then ba.size
        else GetNextUnsetLoop ba fuel bo (compl32 (ba.bits.getD bo 0))

/-- `BitArray.GetNextUnset`.  The first-word mask is the Go source's
`^((1 << (from & 0x3F)) - 1)`: the shift amount is taken modulo 64 (not 32),
a `uint32` shift by 32..63 yields 0, and the `-1` wraps around. -/
def GetNextUnset (ba : BitArray) (start : Nat) : Nat :=
  if start ≥ ba.size then ba.size
  else
    let bitsOffset := start / 32
    let currentBits := compl32 (ba.bits.getD bitsOffset 0)
    let shifted := (1 <<< (start % 64)) % W32
    let currentBits := currentBits &&& compl32 ((shifted + W32 - 1) % W32)
    GetNextUnsetLoop ba ba.bits.length bitsOffset currentBits

/-- The in-word bit reversal of `BitArray.Reverse` (swap adjacent groups of
1, 2, 4, 8, 16 bits). -/
def rev32 (x : Nat) : Nat :=
  let x := ((x >>> 1) &&& 0x55555555) ||| ((x &&& 0x55555555) <<< 1)
  let x := ((x >>> 2) &&& 0x33333333) ||| ((x &&& 0x33333333) <<< 2)
  let x := ((x >>> 4) &&& 0x0F0F0F0F) ||| ((x &&& 0x0F0F0F0F) <<< 4)
  let x := ((x >>> 8) &&& 0x00FF00FF) ||| ((x &&& 0x00FF00FF) <<< 8)
  ((x >>> 16) &&& 0x0000FFFF) ||| ((x &&& 0x0000FFFF) <<< 16)

/-- `BitArray.Reverse`, embedded statement by statement.  In the
padding-correction loop the Go source carries `currentInt` from one
iteration to the next without reassigning it from `nextInt >> leftOffset`;
the embedding reproduces that faithfully. -/
def Reverse (ba : BitArray) : BitArray :=
  let len := (ba.size - 1) / 32
  let oldBitsLen := len + 1
  let newBits := (List.range oldBitsLen).foldl
    (fun nb i => nb.set (len - i) (rev32 (ba.bits.getD i 0)))
    (List.replicate ba.bits.length 0)
  let newBits :=
    if ba.size ≠ oldBitsLen * 32 then
      let leftOffset := oldBitsLen * 32 - ba.size
      let p := (List.range' 1 (oldBitsLen - 1)).foldl
        (fun (p : List Nat × Nat) i =>
          let nextInt := p.1.getD i 0
          let currentInt := p.2 ||| ((nextInt <<< (32 - leftOffset)) % W32)
          (p.1.set (i - 1) currentInt, currentInt))
        (newBits, newBits.getD 0 0 >>> leftOffset)
      p.1.set (oldBitsLen - 1) p.2
    else newBits
  ⟨newBits, ba.size⟩

/-- The comparison loop of `BitArray.Equals`.  `none` models the Go runtime
panic raised when `other.bits` is indexed out of range.  The first argument
is the remaining iteration count `abits.length - i`; when it is 0 the Go
loop condition `i < len(ba.bits)` is false, so the two shapes agree. -/
def EqualsLoopAux (abits bbits : List Nat) : Nat → Nat → Option Bool
  | 0, _ => some true
  | k + 1, i =>
    if i < abits.length then
      if i < bbits.length then
        if abits.getD i 0 ≠ bbits.getD i 0 then some false
        else EqualsLoopAux abits bbits k (i + 1)
      else none
    else some true

def EqualsLoop (abits bbits : List Nat) (i : Nat) : Option Bool :=
  EqualsLoopAux abits bbits (abits.length - i) i

/-- `BitArray.Equals`. -/
def Equals (ba other : BitArray) : Option Bool :=
  if ba.size ≠ other.size then some false
  else EqualsLoop ba.bits other.bits 0

end BitArray

/-- The `BitMatrix` structure: a 2D bit grid, one word buffer per row. -/
structure BitMatrix where
  width : Nat
  height : Nat
  rowSize : Nat
  bits : List (List Nat)
deriving DecidableEq

/-- `NewBitMatrix`. -/
def NewBitMatrix (width height : Nat) : Except String BitMatrix :=
  if width = 0 ∨ height = 0 then .error "Both dimensions must be greater than 0"
  else .ok ⟨width, height, (width + 31) / 32,
    List.replicate height (List.replicate ((width + 31) / 32) 0)⟩

/-- Convenience for building concrete matrices out of the fallible
constructors in closed statements. -/
def okOr (e : Except String BitMatrix) : BitMatrix :=
  match e with
  | .ok m => m
  | .error _ => ⟨0, 0, 0, []⟩

namespace BitMatrix

/-- `bm.bits[y][x32]`. -/
def word (bm : BitMatrix) (y x32 : Nat) : Nat :=
  (bm.bits.getD y []).getD x32 0

/-- `BitMatrix.Get`. -/
def Get (bm : BitMatrix) (x y : Nat) : Bool :=
  (bm.word y (x / 32)) >>> (x % 32) &&& 1 != 0

/-- Replace the word at `(y, x32)`. -/
def setWord (bm : BitMatrix) (y x32 w : Nat) : BitMatrix :=
  { bm with bits := bm.bits.set y ((bm.bits.getD y []).set x32 w) }

/-- `BitMatrix.Set`. -/
def Set (bm : BitMatrix) (x y : Nat) : BitMatrix :=
  bm.setWord y (x / 32) (bm.word y (x / 32) ||| (1 <<< (x % 32)))

/-- `BitMatrix.SetRegion`. -/
def SetRegion (bm : BitMatrix) (left top width height : Nat) :
    Except String BitMatrix :=
  if height = 0 ∨ width = 0 then .error "Height and width must be at least 1"
  else
    let right := left + width
    let bottom := top + height
    if bottom > bm.height ∨ right > bm.width then
      .error "The region must fit inside the matrix"
    else
      .ok ((List.range' top height).foldl
        (fun acc y => (List.range' left width).foldl (fun a x => a.Set x y) acc) bm)

/-- `BitMatrix.GetRow` (the `nil` row argument is `none`). -/
def GetRow (bm : BitMatrix) (y : Nat) (row : Option BitArray) : BitArray :=
  let row :=
    match row with
    | none => NewBitArray bm.width
    | some r => if r.size < bm.width then NewBitArray bm.width else r.Clear
  (List.range bm.rowSize).foldl (fun r x => r.SetBulk (x * 32) (bm.word y x)) row

/-- `BitMatrix.SetRow`: delegates to `internal.SliceCopyU32` with the
matrix row as destination. -/
def SetRow (bm : BitMatrix) (y : Nat) (row : BitArray) : Except String BitMatrix :=
  match SliceCopyU32 row.bits (bm.bits.getD y []) 0 0 (bm.rowSize : Int) with
  | .error e => .error e
  | .ok newRow => .ok { bm with bits := bm.bits.set y newRow }

/-- `BitMatrix.Rotate180`. -/
def Rotate180 (bm : BitMatrix) : Except String BitMatrix := do
  let width := bm.width
  let height := bm.height
  let res ← (List.range ((height + 1) / 2)).foldlM
    (fun (st : BitMatrix × BitArray × BitArray) i => do
      let (m, topRow, bottomRow) := st
      let topRow := m.GetRow i (some topRow)
      let bottomRow := m.GetRow (height - 1 - i) (some bottomRow)
      let topRow := topRow.Reverse
      let bottomRow := bottomRow.Reverse
      let m ← m.SetRow i bottomRow
      let m ← m.SetRow (height - 1 - i) topRow
      pure (m, topRow, bottomRow))
    (bm, NewBitArray width, NewBitArray width)
  pure res.1

/-- One word of the `GetEnclosingRectangle` scan: updates the running
`(left, top, right, bottom)` state (Go `int` arithmetic) with the bits of
word `(y, x32)`. -/
def encloseWord (bm : BitMatrix) (st : Int × Int × Int × Int) (y x32 : Nat) :
    Int × Int × Int × Int :=
  let (left, top, right, bottom) := st
  let theBits := bm.word y x32
  if theBits ≠ 0 then
    let top := if (y : Int) < top then (y : Int) else top
    let bottom := if (y : Int) > bottom then (y : Int) else bottom
    let left :=
      if ((x32 * 32 : Nat) : Int) < left then
        let bit := lowBitScan theBits
        if ((x32 * 32 + bit : Nat) : Int) < left then ((x32 * 32 + bit : Nat) : Int)
        else left
      else left
    let right :=
      if ((x32 * 32 + 31 : Nat) : Int) > right then
        let bit := highBitScan theBits
        if ((x32 * 32 + bit : Nat) : Int) > right then ((x32 * 32 + bit : Nat) : Int)
        else right
      else right
    (left, top, right, bottom)
  else st

/-- `BitMatrix.GetEnclosingRectangle`. -/
def GetEnclosingRectangle (bm : BitMatrix) : Option (List Nat) :=
  let st := (List.range bm.height).foldl
    (fun st y => (List.range bm.rowSize).foldl (fun st x32 => bm.encloseWord st y x32) st)
    ((bm.width : Int), (bm.height : Int), -1, -1)
  let (left, top, right, bottom) := st
  if right < left ∨ bottom < top then none
  else some [left.toNat, top.toNat, (right - left + 1).toNat, (bottom - top + 1).toNat]

/-- Inner loop of `GetTopLeftOnBit`:
`for xOffset < rowSize-1 && bits[yOffset][xOffset] == 0 { xOffset++ }`.
The first `Nat` argument is the remaining iteration count
`rowSize - 1 - x`; when it is 0 the loop condition is false, so the two
shapes agree. -/
def tlScanXAux (bm : BitMatrix) (y : Nat) : Nat → Nat → Nat
  | 0, x => x
  | k + 1, x =>
    if x < bm.rowSize - 1 ∧ bm.word y x = 0 then tlScanXAux bm y k (x + 1) else x

def tlScanX (bm : BitMatrix) (y x : Nat) : Nat :=
  tlScanXAux bm y (bm.rowSize - 1 - x) x

/-- Outer loop of `GetTopLeftOnBit`.  Note that the Go loop does not reset
`xOffset` when moving to the next row.  The first `Nat` argument is the
remaining iteration count `height - 1 - y`; when it is 0 the loop
condition is false, so the two shapes agree. -/
def tlScanYAux (bm : BitMatrix) : Nat → Nat → Nat → Nat × Nat
  | 0, y, x => (y, x)
  | k + 1, y, x =>
    if y < bm.height - 1 then
      let x1 := tlScanX bm y x
      if bm.word y x1 = 0 then tlScanYAux bm k (y + 1) x1 else (y, x1)
    else (y, x)

def tlScanY (bm : BitMatrix) (y x : Nat) : Nat × Nat :=
  tlScanYAux bm (bm.height - 1 - y) y x

/-- `BitMatrix.GetTopLeftOnBit`. -/
def GetTopLeftOnBit (bm : BitMatrix) : Option (List Nat) :=
  let p := tlScanY bm 0 0
  if p.1 = bm.height - 1 ∧ p.2 = bm.rowSize - 1 then none
  else
    let theBits := bm.word p.1 p.2
    let bit := lowBitScan theBits
    some [p.2 * 32 + bit, p.1]

/-- Inner loop of `GetBottomRightOnBit`: walks `xOffset` down while the word
is zero, stopping at 0 (the unsigned-underflow guard). -/
def brScanX (bm : BitMatrix) (y : Nat) : Nat → Nat
  | 0 => 0
  | x + 1 => if bm.word y (x + 1) = 0 then brScanX bm y x else x + 1

/-- Outer loop of `GetBottomRightOnBit`: walks `yOffset` down while the
stopping word is zero, stopping at 0 (the unsigned-underflow guard).
`xOffset` is not reset between rows, as in the Go source. -/
def brScanY (bm : BitMatrix) : Nat → Nat → Nat × Nat
  | 0, x => (0, brScanX bm 0 x)
  | y + 1, x =>
    let x1 := brScanX bm (y + 1) x
    if bm.word (y + 1) x1 = 0 then brScanY bm y x1 else (y + 1, x1)

/-- `BitMatrix.GetBottomRightOnBit`. -/
def GetBottomRightOnBit (bm : BitMatrix) : Option (List Nat) :=
  let p := brScanY bm (bm.height - 1) (bm.rowSize - 1)
  if p.1 = 0 ∧ p.2 = 0 then none
  else
    let theBits := bm.word p.1 p.2
    let bit := highBitScan theBits
    some [p.2 * 32 + bit, p.1]

/-- `BitMatrix.buildToString` over rune lists. -/
def buildToString (bm : BitMatrix) (setString unsetString lineSeperator : List Char) :
    List Char :=
  (List.range bm.height).foldl
    (fun result y =>
      ((List.range bm.width).foldl
        (fun result x => result ++ (if bm.Get x y then setString else unsetString))
        result) ++ lineSeperator)
    []

/-- `BitMatrix.ToString` (line separator `"\n"`). -/
def ToStr (bm : BitMatrix) (setString unsetString : List Char) : List Char :=
  bm.buildToString setString unsetString ['\n']

end BitMatrix

/-- The row-flush step of `ParseStringToBitMatrix` (run at `\n`/`\r` and once
at end of input): records or checks the row length when the current row is
nonempty.  Returns the new `(rowStartPos, rowLength, nRows)`. -/
def flushRow (bits : List Bool) (rowStartPos : Nat) (rowLength : Option Nat)
    (nRows : Nat) : Except String (Nat × Option Nat × Nat) :=
  if bits.length > rowStartPos then
    match rowLength with
    | none => .ok (bits.length, some (bits.length - rowStartPos), nRows + 1)
    | some l =>
      if bits.length - rowStartPos ≠ l then .error "row lengths do not match"
      else .ok (bits.length, some l, nRows + 1)
  else .ok (rowStartPos, rowLength, nRows)

/-- The scanning loop of `ParseStringToBitMatrix`.  `bits` collects the
parsed token values (`bitsPos` is its length).  The Go slice expression
`runes[pos:pos+len(tok)]` panics when it overruns the input; that path is
the "panic: slice bounds out of range" error.  The fuel counts loop
iterations; the caller supplies one more than the input length, which
covers every terminating execution (each iteration of the Go loop
consumes at least one rune whenever both tokens are nonempty). -/
def parseLoop (setRunes unsetRunes : List Char) :
    Nat → List Char → List Bool → Nat → Option Nat → Nat →
    Except String (List Bool × Nat × Option Nat × Nat)
  | 0, _, _, _, _, _ => .error "model: out of fuel"
  | _ + 1, [], bits, rowStartPos, rowLength, nRows =>
    .ok (bits, rowStartPos, rowLength, nRows)
  | fuel + 1, c :: rest, bits, rowStartPos, rowLength, nRows =>
    if c = '\n' ∨ c = '\r' then
      match flushRow bits rowStartPos rowLength nRows with
      | .error e => .error e
      | .ok (rsp, rl, nr) => parseLoop setRunes unsetRunes fuel rest bits rsp rl nr
    else
      let remaining := c :: rest
      if setRunes.length > remaining.length then
        .error "panic: slice bounds out of range"
      else if remaining.take setRunes.length = setRunes then
        parseLoop setRunes unsetRunes fuel (remaining.drop setRunes.length)
          (bits ++ [true]) rowStartPos rowLength nRows
      else if unsetRunes.length > remaining.length then
        .error "panic: slice bounds out of range"
      else if remaining.take unsetRunes.length = unsetRunes then
        parseLoop setRunes unsetRunes fuel (remaining.drop unsetRunes.length)
          (bits ++ [false]) rowStartPos rowLength nRows
      else .error "illegal character encountered"

/-- `ParseStringToBitMatrix`.  `uint32(-1)` (the never-assigned row length
cast to an unsigned width) is `4294967295`. -/
def ParseStringToBitMatrix (stringRepresentation setString unsetString : List Char) :
    Except String BitMatrix :=
  match parseLoop setString unsetString (stringRepresentation.length + 1)
      stringRepresentation [] 0 none 0 with
  | .error e => .error e
  | .ok (bits, rowStartPos, rowLength, nRows) =>
    match flushRow bits rowStartPos rowLength nRows with
    | .error e => .error e
    | .ok (_, rowLength, nRows) =>
      let wdim : Nat := match rowLength with | none => 4294967295 | some l => l
      match NewBitMatrix wdim nRows with
      | .error e => .error e
      | .ok matrix =>
        .ok ((List.range bits.length).foldl
          (fun m i => if bits.getD i false then m.Set (i % wdim) (i / wdim) else m)
          matrix)

/-- `bitSet`, the test suite's naive single-bit probe on a raw word buffer. -/
def bitSet (bits : List Nat) (i : Nat) : Bool :=
  bits.getD (i / 32) 0 &&& (1 <<< (i % 32)) != 0

/-- `reverseOriginal`, the test suite's naive bit-by-bit reversal of the low
`size` bits of a word buffer (the reference implementation that
`BitArray.Reverse` is required to match). -/
def reverseOriginal (oldBits : List Nat) (size : Nat) : List Nat :=
  (List.range size).foldl
    (fun newBits i =>
      if bitSet oldBits (size - i - 1) then
        newBits.set (i / 32) (newBits.getD (i / 32) 0 ||| (1 <<< (i % 32)))
      else newBits)
    (List.replicate oldBits.length 0)

/-- Representation invariant of `BitMatrix`, as established by the validated
constructors and preserved by the bit-level operations: positive
dimensions, `rowSize = ⌈width/32⌉`, `height` rows of `rowSize` words each,
every word a `uint32` value, and no set bit at a column `≥ width`
(clear padding). -/
def WF (bm : BitMatrix) : Prop :=
  0 < bm.width ∧ 0 < bm.height ∧
  bm.rowSize = (bm.width + 31) / 32 ∧
  bm.bits.length = bm.height ∧
  (∀ y < bm.height, (bm.bits.getD y []).length = bm.rowSize) ∧
  (∀ y < bm.height, ∀ x32 < bm.rowSize,
    bm.word y x32 < W32 ∧
    ∀ b < 32, (bm.word y x32).testBit b → x32 * 32 + b < bm.width)

instance (bm : BitMatrix) : Decidable (WF bm) := by
  unfold WF; infer_instance

end ZXing

namespace ZXing

instance {ε α : Type} [DecidableEq ε] [DecidableEq α] : DecidableEq (Except ε α) :=
  fun a b =>
    match a, b with
    | .ok x, .ok y =>
      if h : x = y then .isTrue (congrArg _ h)
      else .isFalse (fun hh => h (Except.ok.inj hh))
    | .error x, .error y =>
      if h : x = y then .isTrue (congrArg _ h)
      else .isFalse (fun hh => h (Except.error.inj hh))
    | .ok _, .error _ => .isFalse (fun hh => Except.noConfusion hh)
    | .error _, .ok _ => .isFalse (fun hh => Except.noConfusion hh)

/-- The 1×1 grid whose only bit, `(0,0)`, is set. -/
def m1x1set : BitMatrix := (okOr (NewBitMatrix 1 1)).Set 0 0

/-- The 5×5 grid after `SetRegion(1,1,3,3)` (the spec's worked example). -/
def m5x5Region : BitMatrix := okOr ((okOr (NewBitMatrix 5 5)).SetRegion 1 1 3 3)

/-- A 33×1 grid (two words per row) whose only set bit is `(0,0)`. -/
def m33x1 : BitMatrix := (okOr (NewBitMatrix 33 1)).Set 0 0

/-- A 33×1 all-clear grid. -/
def m33x1empty : BitMatrix := okOr (NewBitMatrix 33 1)

/-- C1: `GetBottomRightOnBit` does not return `{0,0}` on a grid whose only
set bit is `(0,0)`: the underflow guard makes the scan stop at word
`(0,0)` and the `yOffset == 0 && xOffset == 0` test then reports "no bit
set" without inspecting that word, so the function returns none even
though bit `(0,0)` is set.  This contradicts the function's own
documentation ("If the BitMatrix is completely unset ... the result will
be nil") and the claimed contract. -/
theorem C1_getBottomRightOnBit_origin_bug :
    m1x1set.Get 0 0 = true ∧ m1x1set.GetBottomRightOnBit = none := by decide

/-- C2: `GetNextUnset` masks the first word with
`^((1 << (from & 0x3F)) - 1)` — `0x3F` instead of `0x1F` (compare
`GetNextSet`).  For `from mod 64 ≥ 32` the `uint32` shift yields 0 and the
mask clears the whole word, so the scan skips it: on an all-clear
33-bit sequence, `GetNextUnset(32)` returns 33 (= size) although bit 32
is unset and in range, where the claim requires 32. -/
theorem C2_getNextUnset_mask_bug :
    (NewBitArray 33).GetNextUnset 32 = 33 ∧
    (NewBitArray 33).Get 32 = false ∧ 32 < (NewBitArray 33).size := by decide

/-- C3: the worked example holds (`GetTopLeftOnBit` is `{1,1}` after
`SetRegion(1,1,3,3)` on a 5×5 grid), but the general contract fails: on a
grid whose only set bit is `(0,0)` (so `yOffset = height-1` and
`xOffset = rowSize-1` from the start), the `yOffset == height-1 &&
xOffset == rowSize-1` test reports "no bit set" without inspecting the
last word, and the function returns none even though a bit is set. -/
theorem C3_getTopLeftOnBit_bug :
    m5x5Region.GetTopLeftOnBit = some [1, 1] ∧
    m1x1set.Get 0 0 = true ∧ m1x1set.GetTopLeftOnBit = none := by decide

/-- C5: `BitArray.Reverse` differs from the naive bit-by-bit reversal
`reverseOriginal` on the test suite's own seed buffer at size 33: the Go
port dropped the `currentInt = nextInt >> leftOffset` reassignment inside
the padding-correction loop, so the last word of the reversed buffer is
left holding the previous word's value (here `2^25` instead of 0).  This
is the exact comparison `TestBitArray_ReverseAlgorithmTest` performs, so
the code fails its own test. -/
theorem C5_reverse_differs_from_naive :
    (BitArray.Reverse ⟨[128, 256, 512, 6453324, 50934953], 33⟩).bits ≠
      reverseOriginal [128, 256, 512, 6453324, 50934953] 33 ∧
    (BitArray.Reverse ⟨[128, 256, 512, 6453324, 50934953], 33⟩).bits =
      [33554432, 33554432, 0, 0, 0] ∧
    reverseOriginal [128, 256, 512, 6453324, 50934953] 33 =
      [33554432, 0, 0, 0, 0] := by decide

/-- C6: `Rotate180` is not an involution for widths above one word that are
not a multiple of 32.  On a 33×1 grid with only bit `(0,0)` set, the
defective `Reverse` (see C5) drops the reversed bit that should land at
column 32, so one rotation already clears the grid and two rotations
yield the all-clear grid instead of the original. -/
theorem C6_rotate180_not_involution :
    m33x1.Get 0 0 = true ∧
    (m33x1.Rotate180 >>= BitMatrix.Rotate180) ≠ .ok m33x1 ∧
    ((m33x1.Rotate180 >>= BitMatrix.Rotate180).toOption.map fun m => m.Get 0 0) =
      some false := by decide

/-- C4 counterexample: `SetRow` does not truncate to the smaller word
count — it hands `rowSize` to the bounds-checked copy helper, which
rejects a source buffer holding fewer than `rowSize` words.  A 33-wide
matrix has `rowSize = 2`, a 32-bit sequence has one word, and the call
fails instead of copying one word. -/
theorem C4_setRow_short_row_errors :
    (NewBitArray 32).bits.length = 1 ∧ m33x1empty.rowSize = 2 ∧
    m33x1empty.SetRow 0 (NewBitArray 32) =
      .error "srcPos + length is larger than the length of src" := by decide

/-- C10 counterexample: `Equals` indexes the other sequence's buffer out of
range when the receiver's buffer is longer.  `AppendBit` on a full 32-bit
sequence grows the buffer to `size` words (33), while a freshly
constructed 33-bit sequence has 2 words; comparing the two (equal sizes,
equal logical contents) makes the loop read `other.bits[2]` out of range —
a runtime panic, modelled as `none`. -/
theorem C10_equals_out_of_range :
    ((NewBitArray 32).AppendBit false).size = (NewBitArray 33).size ∧
    ((NewBitArray 32).AppendBit false).bits.length = 33 ∧
    (NewBitArray 33).bits.length = 2 ∧
    BitArray.Equals ((NewBitArray 32).AppendBit false) (NewBitArray 33) = none := by
  decide

/-- C7 counterexample: the text round trip fails when one token is a prefix
of the other.  With set token `"X"` and unset token `"XX"`, the 1×1
all-clear grid prints as `"XX\n"`, which re-parses as a 2×1 grid with both
bits set — a successful parse of a different grid. -/
theorem C7_roundtrip_prefix_tokens_fail :
    ParseStringToBitMatrix
        (BitMatrix.ToStr (okOr (NewBitMatrix 1 1)) ['X'] ['X', 'X']) ['X'] ['X', 'X'] ≠
      .ok (okOr (NewBitMatrix 1 1)) ∧
    (ParseStringToBitMatrix
        (BitMatrix.ToStr (okOr (NewBitMatrix 1 1)) ['X'] ['X', 'X']) ['X'] ['X', 'X']).toOption.map
        (fun m => (m.width, m.height, m.Get 0 0, m.Get 1 0)) =
      some (2, 1, true, true) := by decide

end ZXing

namespace ZXing

/-! ## Word-level infrastructure -/

theorem get_eq_testBit (bm : BitMatrix) (x y : Nat) :
    bm.Get x y = (bm.word y (x / 32)).testBit (x % 32) := by
  simp [BitMatrix.Get, Nat.testBit, Nat.and_comm]

theorem baGet_eq_testBit (ba : BitArray) (i : Nat) :
    ba.Get i = (ba.bits.getD (i / 32) 0).testBit (i % 32) := by
  simp only [BitArray.Get, Nat.shiftLeft_eq, one_mul, Nat.and_two_pow]
  cases h : (ba.bits.getD (i / 32) 0).testBit (i % 32) <;>
    simp [h, Nat.pow_eq_zero]

/-! ## C4: SetRow copies exactly rowSize words -/

theorem copy_fold (src : List Nat) :
    ∀ (n : Nat) (dest : List Nat), n ≤ dest.length → n ≤ src.length →
      (List.range n).foldl (fun d i => d.set i (src.getD i 0)) dest =
        src.take n ++ dest.drop n := by
  intro n
  induction n with
  | zero => simp
  | succ n ih =>
    intro dest hd hs
    rw [List.range_succ, List.foldl_append]
    rw [ih dest (by omega) (by omega)]
    simp only [List.foldl_cons, List.foldl_nil]
    have hns : n < src.length := by omega
    have hnd : n < dest.length := by omega
    have hlen : (src.take n).length = n := by
      simp [Nat.min_eq_left (by omega : n ≤ src.length)]
    rw [List.set_append_right _ _ (by omega), hlen, Nat.sub_self,
      List.drop_eq_getElem_cons hnd]
    simp only [List.set_cons_zero, List.take_succ, List.getElem?_eq_getElem hns,
      Option.toList_some, List.getD_eq_getElem?_getD, Option.getD_some,
      List.append_assoc, List.cons_append, List.nil_append]

/-- C4 (amended): `SetRow(y, row)` hands `rowSize` to the bounds-checked
copy helper: when the sequence's buffer holds at least `rowSize` words the
call succeeds and row `y` becomes the first `rowSize` words of the buffer;
when it holds fewer, the call fails with an error (and copies nothing)
rather than truncating to the smaller word count. -/
theorem C4_setRow_copies_rowSize (bm : BitMatrix) (y : Nat) (row : BitArray)
    (hrow : (bm.bits.getD y []).length = bm.rowSize) :
    bm.SetRow y row =
      if bm.rowSize ≤ row.bits.length then
        .ok { bm with bits := bm.bits.set y (row.bits.take bm.rowSize) }
      else .error "srcPos + length is larger than the length of src" := by
  unfold BitMatrix.SetRow SliceCopyU32
  by_cases h : bm.rowSize ≤ row.bits.length
  · rw [if_pos h]
    have h1 : ¬((0 : Int) < 0 ∨ (0 : Int) < 0) := by omega
    have h2 : ¬((bm.rowSize : Int) < 0) := by omega
    have h3 : ¬((row.bits.length : Int) < 0 + bm.rowSize) := by
      omega
    have h4 : ¬(((bm.bits.getD y []).length : Int) < 0 + bm.rowSize) := by
      omega
    simp only [h1, h2, h3, h4, if_neg, ite_false, not_false_eq_true]
    have : ((bm.rowSize : Int)).toNat = bm.rowSize := by simp
    rw [this]
    have hc := copy_fold row.bits bm.rowSize (bm.bits.getD y []) (by omega) h
    simp only [Int.toNat_zero, Nat.zero_add] at *
    rw [hc]
    rw [List.drop_eq_nil_of_le (by omega), List.append_nil]
  · rw [if_neg h]
    have h1 : ¬((0 : Int) < 0 ∨ (0 : Int) < 0) := by omega
    have h2 : ¬((bm.rowSize : Int) < 0) := by omega
    have h3 : ((row.bits.length : Int) < 0 + bm.rowSize) := by omega
    simp only [h1, h2, h3, if_neg, ite_true, ite_false, not_false_eq_true]

/-- Witness for C4's amended theorem: a 33×1 matrix (`rowSize = 2`) accepts
a 64-bit sequence's two words. -/
theorem C4_setRow_copies_rowSize_witness :
    m33x1empty.SetRow 0 (NewBitArray 64) =
      if m33x1empty.rowSize ≤ (NewBitArray 64).bits.length then
        .ok { m33x1empty with
          bits := m33x1empty.bits.set 0 ((NewBitArray 64).bits.take m33x1empty.rowSize) }
      else .error "srcPos + length is larger than the length of src" :=
  C4_setRow_copies_rowSize m33x1empty 0 (NewBitArray 64) (by decide)

/-! ## C10: Equals under the buffer-length side condition -/

theorem equalsLoopAux_spec (abits bbits : List Nat) :
    ∀ (k i : Nat), abits.length ≤ bbits.length → abits.length ≤ k + i →
      BitArray.EqualsLoopAux abits bbits k i ≠ none ∧
      (BitArray.EqualsLoopAux abits bbits k i = some true ↔
        ∀ j, i ≤ j → j < abits.length → abits.getD j 0 = bbits.getD j 0) := by
  intro k
  induction k with
  | zero =>
    intro i hlen hk
    refine ⟨by simp [BitArray.EqualsLoopAux], ?_⟩
    simp only [BitArray.EqualsLoopAux]
    exact ⟨fun _ j hij hj => absurd hj (by omega), fun _ => trivial⟩
  | succ k ih =>
    intro i hlen hk
    by_cases hi : i < abits.length
    · have hib : i < bbits.length := by omega
      have hstep : BitArray.EqualsLoopAux abits bbits (k + 1) i =
          if abits.getD i 0 ≠ bbits.getD i 0 then some false
          else BitArray.EqualsLoopAux abits bbits k (i + 1) := by
        simp only [BitArray.EqualsLoopAux, if_pos hi, if_pos hib]
      rw [hstep]
      by_cases hne : abits.getD i 0 ≠ bbits.getD i 0
      · rw [if_pos hne]
        refine ⟨by simp, ?_⟩
        constructor
        · intro h; exact absurd h (by simp)
        · intro h; exact absurd (h i le_rfl hi) hne
      · rw [if_neg hne]
        have heq := not_not.mp hne
        have hrec := ih (i + 1) hlen (by omega)
        refine ⟨hrec.1, ?_⟩
        rw [hrec.2]
        constructor
        · intro h j hij hj
          rcases Nat.eq_or_lt_of_le hij with rfl | hlt
          · exact heq
          · exact h j hlt hj
        · intro h j hij hj
          exact h j (by omega) hj
    · have hstep : BitArray.EqualsLoopAux abits bbits (k + 1) i = some true := by
        simp only [BitArray.EqualsLoopAux, if_neg hi]
      rw [hstep]
      exact ⟨by simp, ⟨fun _ j hij hj => absurd hj (by omega), fun _ => rfl⟩⟩

/-- C10 (amended): `Equals` stays in bounds only when the other sequence's
buffer is at least as long as the receiver's; under that side condition it
returns `true` exactly when the sizes are equal and the raw word buffers
agree at every index below the receiver's buffer length.  (Without the
side condition the loop can index out of range — see the counterexample.) -/
theorem C10_equals_in_bounds (a b : BitArray)
    (h : a.bits.length ≤ b.bits.length) :
    BitArray.Equals a b ≠ none ∧
    (BitArray.Equals a b = some true ↔
      a.size = b.size ∧ ∀ j < a.bits.length, a.bits.getD j 0 = b.bits.getD j 0) := by
  unfold BitArray.Equals
  by_cases hs : a.size ≠ b.size
  · rw [if_pos hs]
    constructor
    · simp
    · constructor
      · intro hh; exact absurd hh (by simp)
      · intro hh; exact absurd hh.1 hs
  · rw [if_neg hs]
    have := equalsLoopAux_spec a.bits b.bits (a.bits.length - 0) 0 h (by omega)
    unfold BitArray.EqualsLoop
    constructor
    · exact this.1
    · rw [this.2]
      constructor
      · intro hh; exact ⟨by omega, fun j hj => hh j (by omega) hj⟩
      · intro hh j _ hj; exact hh.2 j hj

/-- Witness for C10's amended theorem: two freshly constructed 33-bit
sequences compare equal and in bounds. -/
theorem C10_equals_in_bounds_witness :
    BitArray.Equals (NewBitArray 33) (NewBitArray 33) ≠ none ∧
    (BitArray.Equals (NewBitArray 33) (NewBitArray 33) = some true ↔
      (NewBitArray 33).size = (NewBitArray 33).size ∧
      ∀ j < (NewBitArray 33).bits.length,
        (NewBitArray 33).bits.getD j 0 = (NewBitArray 33).bits.getD j 0) :=
  C10_equals_in_bounds (NewBitArray 33) (NewBitArray 33) (by decide)

end ZXing

namespace ZXing

/-! ## C8: SetRegion sets exactly the rectangle -/

/-- Two matrices with identical dimensions and buffer geometry. -/
def SameShape (a b : BitMatrix) : Prop :=
  a.width = b.width ∧ a.height = b.height ∧ a.rowSize = b.rowSize ∧
  a.bits.length = b.bits.length ∧
  ∀ y, (a.bits.getD y []).length = (b.bits.getD y []).length

theorem sameShape_refl (a : BitMatrix) : SameShape a a :=
  ⟨rfl, rfl, rfl, rfl, fun _ => rfl⟩

theorem sameShape_trans {a b c : BitMatrix} (h1 : SameShape a b) (h2 : SameShape b c) :
    SameShape a c :=
  ⟨h1.1.trans h2.1, h1.2.1.trans h2.2.1, h1.2.2.1.trans h2.2.2.1,
   h1.2.2.2.1.trans h2.2.2.2.1, fun y => (h1.2.2.2.2 y).trans (h2.2.2.2.2 y)⟩

theorem getD_set_list {α} (l : List α) (i j : Nat) (a : α) (d : α) :
    (l.set i a).getD j d = if i = j ∧ i < l.length then a else l.getD j d := by
  by_cases h : i = j ∧ i < l.length
  · obtain ⟨rfl, hlen⟩ := h
    simp [List.getD_eq_getElem?_getD, List.getElem?_set_self hlen, hlen]
  · rw [if_neg h]
    by_cases hij : i = j
    · subst hij
      have hlen : ¬ i < l.length := by tauto
      rw [List.set_eq_of_length_le (by omega)]
    · simp [List.getD_eq_getElem?_getD, List.getElem?_set_ne hij]

theorem sameShape_Set (bm : BitMatrix) (x y : Nat) : SameShape (bm.Set x y) bm := by
  refine ⟨rfl, rfl, rfl, by simp [BitMatrix.Set, BitMatrix.setWord], ?_⟩
  intro y'
  simp only [BitMatrix.Set, BitMatrix.setWord]
  rw [getD_set_list]
  by_cases h : y = y' ∧ y < bm.bits.length
  · rw [if_pos h]; obtain ⟨rfl, _⟩ := h; simp
  · rw [if_neg h]

theorem word_Set (bm : BitMatrix) (x y y' x32 : Nat)
    (hy : y < bm.bits.length) (hx : x / 32 < (bm.bits.getD y []).length) :
    (bm.Set x y).word y' x32 =
      if y' = y ∧ x32 = x / 32 then bm.word y (x / 32) ||| (1 <<< (x % 32))
      else bm.word y' x32 := by
  simp only [BitMatrix.Set, BitMatrix.setWord, BitMatrix.word]
  rw [getD_set_list]
  by_cases hyy : y = y'
  · subst hyy
    rw [if_pos ⟨rfl, hy⟩]
    rw [getD_set_list]
    by_cases hxx : x / 32 = x32
    · subst hxx; rw [if_pos ⟨rfl, hx⟩, if_pos ⟨rfl, rfl⟩]
    · rw [if_neg (by tauto), if_neg (by tauto)]
  · rw [if_neg (by tauto), if_neg (by tauto)]

theorem testBit_one_shift (k j : Nat) : (1 <<< k).testBit j = decide (k = j) := by
  rw [Nat.shiftLeft_eq, one_mul, Nat.testBit_two_pow]

theorem get_Set (bm : BitMatrix) (x y x' y' : Nat)
    (hy : y < bm.bits.length) (hx : x / 32 < (bm.bits.getD y []).length) :
    (bm.Set x y).Get x' y' = (bm.Get x' y' || (decide (x' = x) && decide (y' = y))) := by
  rw [get_eq_testBit, get_eq_testBit, word_Set bm x y y' (x' / 32) hy hx]
  by_cases hyy : y' = y
  · subst hyy
    by_cases hxx : x' / 32 = x / 32
    · rw [if_pos ⟨rfl, hxx⟩, hxx, Nat.testBit_or, testBit_one_shift]
      by_cases hb : x' % 32 = x % 32
      · have hxe : x' = x := by omega
        simp [hxe]
      · have hne : x' ≠ x := by omega
        have hb2 : ¬(x % 32 = x' % 32) := by omega
        simp [hne, hb2]
    · rw [if_neg (by tauto)]
      have hne : x' ≠ x := by omega
      simp [hne]
  · rw [if_neg (by tauto)]
    simp [hyy]

theorem get_foldSet_x (xs : List Nat) :
    ∀ (bm : BitMatrix) (y x' y' : Nat),
      y < bm.bits.length →
      (∀ x ∈ xs, x / 32 < (bm.bits.getD y []).length) →
      (xs.foldl (fun a x => a.Set x y) bm).Get x' y' =
        (bm.Get x' y' || (decide (x' ∈ xs) && decide (y' = y))) := by
  induction xs with
  | nil => intro bm y x' y' _ _; simp
  | cons x xs ih =>
    intro bm y x' y' hy hxs
    simp only [List.foldl_cons]
    have hsh := sameShape_Set bm x y
    rw [ih (bm.Set x y) y x' y' (by rw [hsh.2.2.2.1]; exact hy)
      (fun a ha => by rw [hsh.2.2.2.2 y]; exact hxs a (by simp [ha]))]
    rw [get_Set bm x y x' y' hy (hxs x (by simp))]
    by_cases hmem : x' = x
    · subst hmem
      by_cases hyy : y' = y <;> simp [hyy]
    · simp [hmem, List.mem_cons]

theorem get_foldSet (ys : List Nat) (xs : List Nat) :
    ∀ (bm : BitMatrix) (x' y' : Nat),
      (∀ y ∈ ys, y < bm.bits.length) →
      (∀ y ∈ ys, ∀ x ∈ xs, x / 32 < (bm.bits.getD y []).length) →
      ((ys.foldl (fun acc y => xs.foldl (fun a x => a.Set x y) acc) bm).Get x' y') =
        (bm.Get x' y' || (decide (x' ∈ xs) && decide (y' ∈ ys))) := by
  induction ys with
  | nil => intro bm x' y' _ _; simp
  | cons y ys ih =>
    intro bm x' y' hys hxs
    simp only [List.foldl_cons]
    have hshx : SameShape (xs.foldl (fun a x => a.Set x y) bm) bm := by
      clear hys hxs ih
      induction xs generalizing bm with
      | nil => exact sameShape_refl bm
      | cons x xs ihx =>
        simp only [List.foldl_cons]
        exact sameShape_trans (ihx (bm.Set x y)) (sameShape_Set bm x y)
    rw [ih _ x' y'
      (fun a ha => by rw [hshx.2.2.2.1]; exact hys a (by simp [ha]))
      (fun a ha b hb => by rw [hshx.2.2.2.2 a]; exact hxs a (by simp [ha]) b hb)]
    rw [get_foldSet_x xs bm y x' y' (hys y (by simp)) (hxs y (by simp))]
    by_cases hx : x' ∈ xs
    · by_cases hyy : y' = y
      · simp [hx, hyy]
      · simp [hx, hyy, List.mem_cons]
    · simp [hx]

/-- C8: when the rectangle fits, `SetRegion(left, top, w, h)` succeeds and
afterwards exactly the bits with `left ≤ x < left+w` and `top ≤ y < top+h`
are set; every bit outside the rectangle keeps its prior value. -/
theorem C8_setRegion_exact (bm : BitMatrix) (left top w h : Nat) (hwf : WF bm)
    (hw : 0 < w) (hh : 0 < h) (hr : left + w ≤ bm.width) (hb : top + h ≤ bm.height) :
    ∃ bm2, bm.SetRegion left top w h = .ok bm2 ∧
      ∀ x < bm.width, ∀ y < bm.height,
        bm2.Get x y =
          if left ≤ x ∧ x < left + w ∧ top ≤ y ∧ y < top + h then true
          else bm.Get x y := by
  obtain ⟨hw0, hh0, hrs, hlen, hrows, _⟩ := hwf
  unfold BitMatrix.SetRegion
  rw [if_neg (by omega), if_neg (by omega)]
  refine ⟨_, rfl, ?_⟩
  intro x hx y hy
  rw [get_foldSet (List.range' top h) (List.range' left w) bm x y
    (fun a ha => by
      have := List.mem_range'.mp ha
      omega)
    (fun a ha b hb => by
      have h1 := List.mem_range'.mp ha
      have h2 := List.mem_range'.mp hb
      have ha' : a < bm.height := by omega
      rw [hrows a ha', hrs]
      omega)]
  by_cases hin : left ≤ x ∧ x < left + w ∧ top ≤ y ∧ y < top + h
  · rw [if_pos hin]
    have hxm : x ∈ List.range' left w := List.mem_range'.mpr ⟨x - left, by omega⟩
    have hym : y ∈ List.range' top h := List.mem_range'.mpr ⟨y - top, by omega⟩
    simp [hxm, hym]
  · rw [if_neg hin]
    have : ¬(x ∈ List.range' left w ∧ y ∈ List.range' top h) := by
      intro ⟨hxm, hym⟩
      have h1 := List.mem_range'.mp hxm
      have h2 := List.mem_range'.mp hym
      omega
    by_cases hxm : x ∈ List.range' left w
    · have hym : ¬ y ∈ List.range' top h := by tauto
      simp [hxm, hym]
    · simp [hxm]

/-- Witness for C8: the spec's 5×5 example with `SetRegion(1,1,3,3)`. -/
theorem C8_setRegion_exact_witness :
    ∃ bm2, (okOr (NewBitMatrix 5 5)).SetRegion 1 1 3 3 = .ok bm2 ∧
      ∀ x < (okOr (NewBitMatrix 5 5)).width, ∀ y < (okOr (NewBitMatrix 5 5)).height,
        bm2.Get x y =
          if 1 ≤ x ∧ x < 1 + 3 ∧ 1 ≤ y ∧ y < 1 + 3 then true
          else (okOr (NewBitMatrix 5 5)).Get x y :=
  C8_setRegion_exact (okOr (NewBitMatrix 5 5)) 1 1 3 3 (by decide)
    (by decide) (by decide) (by decide) (by decide)

end ZXing

namespace ZXing

/-! ## Bit-scan specifications (for C9) -/

theorem modPow_zero_iff (w m : Nat) :
    w % 2 ^ m = 0 ↔ ∀ i < m, w.testBit i = false := by
  constructor
  · intro h i him
    have ht := Nat.testBit_mod_two_pow w m i
    rw [h] at ht
    simp only [Nat.zero_testBit] at ht
    have := ht.symm
    rw [Bool.and_eq_false_iff] at this
    rcases this with h' | h'
    · simp [him] at h'
    · exact h'
  · intro h
    apply Nat.eq_of_testBit_eq
    intro i
    rw [Nat.testBit_mod_two_pow, Nat.zero_testBit]
    by_cases him : i < m
    · simp [him, h i him]
    · simp [him]

theorem shiftLeft_mod_W32_zero_iff (w k : Nat) (hk : k ≤ 32) :
    (w <<< k) % W32 = 0 ↔ w % 2 ^ (32 - k) = 0 := by
  have h1 : W32 = 2 ^ (32 - k) * 2 ^ k := by
    rw [← pow_add]
    show 2 ^ 32 = _
    congr 1
    omega
  rw [Nat.shiftLeft_eq, h1, Nat.mul_mod_mul_right]
  constructor
  · intro h
    rcases Nat.mul_eq_zero.mp h with h' | h'
    · exact h'
    · exact absurd h' (by positivity)
  · intro h
    rw [h, zero_mul]

theorem shiftRight_zero_iff (w k : Nat) : w >>> k = 0 ↔ w < 2 ^ k := by
  rw [Nat.shiftRight_eq_div_pow]
  rw [Nat.div_eq_zero_iff (Nat.pos_of_ne_zero (by positivity))]

theorem W32_eq : W32 = 2 ^ 32 := by norm_num [W32]

theorem testBit_false_of_ge_32 (w i : Nat) (hw : w < W32) (hi : 32 ≤ i) :
    w.testBit i = false := by
  rw [W32_eq] at hw
  exact Nat.testBit_lt_two_pow (lt_of_lt_of_le hw (Nat.pow_le_pow_right (by omega) hi))

theorem lowBitScanAux_spec (w : Nat) (hw : w ≠ 0) (hlt : w < W32) :
    ∀ (fuel bit : Nat), 32 ≤ bit + fuel → bit ≤ 31 → w % 2 ^ bit = 0 →
      lowBitScanAux w fuel bit ≤ 31 ∧
      w.testBit (lowBitScanAux w fuel bit) = true ∧
      ∀ i < lowBitScanAux w fuel bit, w.testBit i = false := by
  intro fuel
  induction fuel with
  | zero => intro bit h1 h2 _; omega
  | succ fuel ih =>
    intro bit h1 h2 hmod
    have hcond : ((w <<< (31 - bit)) % W32 = 0) ↔ w % 2 ^ (bit + 1) = 0 := by
      have h32 : 32 - (31 - bit) = bit + 1 := by omega
      rw [shiftLeft_mod_W32_zero_iff w (31 - bit) (by omega), h32]
    by_cases hc : (w <<< (31 - bit)) % W32 = 0
    · have hmod' : w % 2 ^ (bit + 1) = 0 := hcond.mp hc
      have hbitlt : bit < 31 := by
        rcases Nat.lt_or_ge bit 31 with h | h
        · exact h
        · exfalso
          have hb31 : bit = 31 := by omega
          subst hb31
          rw [W32_eq] at hlt
          have : w % 2 ^ 32 = w := Nat.mod_eq_of_lt hlt
          rw [this] at hmod'
          exact hw hmod'
      have := ih (bit + 1) (by omega) (by omega) hmod'
      simpa [lowBitScanAux, hc] using this
    · have hne : ¬ w % 2 ^ (bit + 1) = 0 := fun h => hc (hcond.mpr h)
      have hres : lowBitScanAux w (fuel + 1) bit = bit := by
        simp [lowBitScanAux, hc]
      rw [hres]
      refine ⟨h2, ?_, ?_⟩
      · cases hb : w.testBit bit with
        | true => rfl
        | false =>
          exfalso
          apply hne
          rw [modPow_zero_iff]
          intro i hi
          rcases Nat.lt_or_ge i bit with h' | h'
          · exact (modPow_zero_iff w bit).mp hmod i h'
          · have hib : i = bit := by omega
            rw [hib]
            exact hb
      · intro i hi
        exact (modPow_zero_iff w bit).mp hmod i hi

theorem lowBitScan_spec (w : Nat) (hw : w ≠ 0) (hlt : w < W32) :
    lowBitScan w ≤ 31 ∧ w.testBit (lowBitScan w) = true ∧
    ∀ i < lowBitScan w, w.testBit i = false :=
  lowBitScanAux_spec w hw hlt 32 0 (by omega) (by omega) (by rw [pow_zero]; exact Nat.mod_one w)

theorem highBitScanAux_spec (w : Nat) (hw : w ≠ 0) :
    ∀ (fuel bit : Nat), bit + 1 ≤ fuel → bit ≤ 31 → w < 2 ^ (bit + 1) →
      highBitScanAux w fuel bit ≤ 31 ∧
      w.testBit (highBitScanAux w fuel bit) = true ∧
      ∀ i, w.testBit i = true → i ≤ highBitScanAux w fuel bit := by
  intro fuel
  induction fuel with
  | zero => intro bit h1 _ _; omega
  | succ fuel ih =>
    intro bit h1 h2 hub
    by_cases hc : w >>> bit = 0
    · have hlt : w < 2 ^ bit := (shiftRight_zero_iff w bit).mp hc
      have hbpos : bit ≠ 0 := by
        intro h0
        subst h0
        simp at hlt
        exact hw hlt
      have := ih (bit - 1) (by omega) (by omega)
        (by have : bit - 1 + 1 = bit := by omega
            rw [this]; exact hlt)
      simpa [highBitScanAux, hc] using this
    · have hres : highBitScanAux w (fuel + 1) bit = bit := by
        simp [highBitScanAux, hc]
      rw [hres]
      refine ⟨h2, ?_, ?_⟩
      · have hdiv : w >>> bit = w / 2 ^ bit := Nat.shiftRight_eq_div_pow w bit
        have h1' : w / 2 ^ bit ≠ 0 := by rw [← hdiv]; exact hc
        have h2' : w / 2 ^ bit < 2 := by
          rw [Nat.div_lt_iff_lt_mul (by positivity)]
          have hp : 2 ^ (bit + 1) = 2 ^ bit * 2 := by rw [pow_succ]
          omega
        have h3' : w / 2 ^ bit = 1 := by
          interval_cases h : (w / 2 ^ bit)
          · exact absurd rfl (h ▸ h1')
          · rfl
        rw [Nat.testBit_to_div_mod, h3']
        simp
      · intro i hi
        by_contra hgt
        push_neg at hgt
        have : w < 2 ^ i := lt_of_lt_of_le hub (Nat.pow_le_pow_right (by omega) (by omega))
        rw [Nat.testBit_lt_two_pow this] at hi
        exact absurd hi (by simp)

theorem highBitScan_spec (w : Nat) (hw : w ≠ 0) (hlt : w < W32) :
    highBitScan w ≤ 31 ∧ w.testBit (highBitScan w) = true ∧
    ∀ i, w.testBit i = true → i ≤ highBitScan w :=
  highBitScanAux_spec w hw 32 31 (by omega) (by omega) (by rw [← W32_eq]; exact hlt)

end ZXing

namespace ZXing

/-! ## C9: GetEnclosingRectangle computes the minimal bounding rectangle -/

/-- Set bit `(a, c)` lies strictly before position `(y, x32)` in the
row-major word scan of `GetEnclosingRectangle`. -/
def BitBefore (bm : BitMatrix) (y x32 a c : Nat) : Prop :=
  a < bm.width ∧ bm.Get a c = true ∧ (c < y ∨ (c = y ∧ a / 32 < x32))

/-- Invariant of the scan: `(left, top, right, bottom)` bound every set bit
seen so far, and each extreme is either still at its initial value or is
attained by a seen set bit. -/
def EncInv (bm : BitMatrix) (y x32 : Nat) : Int × Int × Int × Int → Prop
  | (l, t, r, b) =>
    0 ≤ l ∧ l ≤ (bm.width : Int) ∧ 0 ≤ t ∧ t ≤ (bm.height : Int) ∧
    -1 ≤ r ∧ -1 ≤ b ∧
    (∀ a c, BitBefore bm y x32 a c →
      l ≤ (a : Int) ∧ (a : Int) ≤ r ∧ t ≤ (c : Int) ∧ (c : Int) ≤ b) ∧
    (l = (bm.width : Int) ∨ ∃ a c, BitBefore bm y x32 a c ∧ (a : Int) = l) ∧
    (r = -1 ∨ ∃ a c, BitBefore bm y x32 a c ∧ (a : Int) = r) ∧
    (t = (bm.height : Int) ∨ ∃ a c, BitBefore bm y x32 a c ∧ (c : Int) = t) ∧
    (b = -1 ∨ ∃ a c, BitBefore bm y x32 a c ∧ (c : Int) = b)

theorem encInv_of_iff (bm : BitMatrix) (y1 x1 y2 x2 : Nat)
    (st : Int × Int × Int × Int)
    (h : ∀ a c, BitBefore bm y1 x1 a c ↔ BitBefore bm y2 x2 a c)
    (hinv : EncInv bm y1 x1 st) : EncInv bm y2 x2 st := by
  obtain ⟨l, t, r, b⟩ := st
  obtain ⟨h1, h2, h3, h4, h5, h6, hb, a1, a2, a3, a4⟩ := hinv
  refine ⟨h1, h2, h3, h4, h5, h6,
    fun a c hc => hb a c ((h a c).mpr hc), ?_, ?_, ?_, ?_⟩
  · rcases a1 with h' | ⟨a, c, hbb, he⟩
    · exact Or.inl h'
    · exact Or.inr ⟨a, c, (h a c).mp hbb, he⟩
  · rcases a2 with h' | ⟨a, c, hbb, he⟩
    · exact Or.inl h'
    · exact Or.inr ⟨a, c, (h a c).mp hbb, he⟩
  · rcases a3 with h' | ⟨a, c, hbb, he⟩
    · exact Or.inl h'
    · exact Or.inr ⟨a, c, (h a c).mp hbb, he⟩
  · rcases a4 with h' | ⟨a, c, hbb, he⟩
    · exact Or.inl h'
    · exact Or.inr ⟨a, c, (h a c).mp hbb, he⟩

theorem bitBefore_succ (bm : BitMatrix) (y x32 a c : Nat) :
    BitBefore bm y (x32 + 1) a c ↔
      BitBefore bm y x32 a c ∨
      (a < bm.width ∧ bm.Get a c = true ∧ c = y ∧ a / 32 = x32) := by
  unfold BitBefore
  constructor
  · rintro ⟨h1, h2, h3 | ⟨rfl, h4⟩⟩
    · exact Or.inl ⟨h1, h2, Or.inl h3⟩
    · rcases Nat.lt_or_ge (a / 32) x32 with h | h
      · exact Or.inl ⟨h1, h2, Or.inr ⟨rfl, h⟩⟩
      · exact Or.inr ⟨h1, h2, rfl, by omega⟩
  · rintro (⟨h1, h2, h3 | ⟨rfl, h4⟩⟩ | ⟨h1, h2, rfl, h4⟩)
    · exact ⟨h1, h2, Or.inl h3⟩
    · exact ⟨h1, h2, Or.inr ⟨rfl, by omega⟩⟩
    · exact ⟨h1, h2, Or.inr ⟨rfl, by omega⟩⟩

theorem newBit_iff (bm : BitMatrix) (hwf : WF bm) (y x32 : Nat)
    (hy : y < bm.height) (hx : x32 < bm.rowSize) (a c : Nat) :
    (a < bm.width ∧ bm.Get a c = true ∧ c = y ∧ a / 32 = x32) ↔
      (c = y ∧ ∃ i, i < 32 ∧ (bm.word y x32).testBit i = true ∧
        a = x32 * 32 + i) := by
  obtain ⟨_, _, _, _, _, hwords⟩ := hwf
  constructor
  · rintro ⟨h1, h2, rfl, h4⟩
    refine ⟨rfl, a % 32, by omega, ?_, by omega⟩
    rw [get_eq_testBit, h4] at h2
    exact h2
  · rintro ⟨heq, i, hi32, hbit, rfl⟩
    subst c
    have hpad := (hwords y hy x32 hx).2 i hi32 hbit
    refine ⟨hpad, ?_, rfl, by omega⟩
    rw [get_eq_testBit]
    have hdiv : (x32 * 32 + i) / 32 = x32 := by omega
    have hmod : (x32 * 32 + i) % 32 = i := by omega
    rw [hdiv, hmod]
    exact hbit

/-- The guarded left-extreme update of `encloseWord`, abstracted for
reasoning (`base = x32*32`, `bit` the forward-scan result). -/
def encLeftUpd (l : Int) (base bit : Nat) : Int :=
  if ((base : Nat) : Int) < l then
    (if ((base + bit : Nat) : Int) < l then ((base + bit : Nat) : Int) else l)
  else l

/-- The guarded right-extreme update of `encloseWord`. -/
def encRightUpd (r : Int) (base bit : Nat) : Int :=
  if ((base + 31 : Nat) : Int) > r then
    (if ((base + bit : Nat) : Int) > r then ((base + bit : Nat) : Int) else r)
  else r

theorem encLeftUpd_facts (l : Int) (base bit : Nat) (hl0 : 0 ≤ l) :
    0 ≤ encLeftUpd l base bit ∧ encLeftUpd l base bit ≤ l ∧
    (encLeftUpd l base bit = l ∨
      encLeftUpd l base bit = ((base + bit : Nat) : Int)) ∧
    (encLeftUpd l base bit ≤ ((base + bit : Nat) : Int) ∨
      encLeftUpd l base bit ≤ ((base : Nat) : Int)) := by
  unfold encLeftUpd
  split_ifs <;> push_cast <;> omega

theorem encRightUpd_facts (r : Int) (base bit : Nat) (hbit : bit ≤ 31) :
    r ≤ encRightUpd r base bit ∧
    (encRightUpd r base bit = r ∨
      encRightUpd r base bit = ((base + bit : Nat) : Int)) ∧
    (((base + bit : Nat) : Int) ≤ encRightUpd r base bit ∨
      ((base + 31 : Nat) : Int) ≤ encRightUpd r base bit) := by
  unfold encRightUpd
  split_ifs <;> push_cast <;> omega

theorem encloseWord_inv (bm : BitMatrix) (hwf : WF bm) (y x32 : Nat)
    (hy : y < bm.height) (hx : x32 < bm.rowSize) (st : Int × Int × Int × Int)
    (hinv : EncInv bm y x32 st) :
    EncInv bm y (x32 + 1) (bm.encloseWord st y x32) := by
  obtain ⟨l, t, r, b⟩ := st
  obtain ⟨hl0, hlw, ht0, hth, hr0, hb0, hbound, hal, har, hat, hab⟩ := hinv
  by_cases hw : bm.word y x32 = 0
  · have hsame : ∀ a c, BitBefore bm y (x32 + 1) a c ↔ BitBefore bm y x32 a c := by
      intro a c
      rw [bitBefore_succ]
      constructor
      · rintro (h | ⟨h1, h2, heq, h4⟩)
        · exact h
        · exfalso
          subst heq
          rw [get_eq_testBit, h4, hw] at h2
          simp at h2
      · exact Or.inl
    have henc : bm.encloseWord (l, t, r, b) y x32 = (l, t, r, b) := by
      simp [BitMatrix.encloseWord, hw]
    rw [henc]
    exact encInv_of_iff bm y x32 y (x32 + 1) (l, t, r, b)
      (fun a c => (hsame a c).symm)
      ⟨hl0, hlw, ht0, hth, hr0, hb0, hbound, hal, har, hat, hab⟩
  · have hwlt : bm.word y x32 < W32 := ((hwf.2.2.2.2.2) y hy x32 hx).1
    have hpad := ((hwf.2.2.2.2.2) y hy x32 hx).2
    obtain ⟨hlow31, hlowbit, hlowmin⟩ := lowBitScan_spec (bm.word y x32) hw hwlt
    obtain ⟨hhigh31, hhighbit, hhighmax⟩ := highBitScan_spec (bm.word y x32) hw hwlt
    have hchar : ∀ a c, BitBefore bm y (x32 + 1) a c ↔
        (BitBefore bm y x32 a c ∨
          (c = y ∧ ∃ i, i < 32 ∧ (bm.word y x32).testBit i = true ∧
            a = x32 * 32 + i)) := by
      intro a c
      rw [bitBefore_succ, newBit_iff bm hwf y x32 hy hx]
    have henc : bm.encloseWord (l, t, r, b) y x32 =
        (encLeftUpd l (x32 * 32) (lowBitScan (bm.word y x32)),
         if (y : Int) < t then (y : Int) else t,
         encRightUpd r (x32 * 32) (highBitScan (bm.word y x32)),
         if (y : Int) > b then (y : Int) else b) := by
      simp only [BitMatrix.encloseWord, encLeftUpd, encRightUpd]
      rw [if_pos hw]
    rw [henc]
    obtain ⟨Fl1, Fl2, Fl3, Fl4⟩ :=
      encLeftUpd_facts l (x32 * 32) (lowBitScan (bm.word y x32)) hl0
    obtain ⟨Fr1, Fr2, Fr3⟩ :=
      encRightUpd_facts r (x32 * 32) (highBitScan (bm.word y x32)) hhigh31
    have Ft : (if (y : Int) < t then (y : Int) else t) ≤ t ∧
        0 ≤ (if (y : Int) < t then (y : Int) else t) ∧
        ((if (y : Int) < t then (y : Int) else t) = t ∨
         (if (y : Int) < t then (y : Int) else t) = (y : Int)) ∧
        (if (y : Int) < t then (y : Int) else t) ≤ (y : Int) := by
      split_ifs <;> omega
    have Fb : b ≤ (if (y : Int) > b then (y : Int) else b) ∧
        ((if (y : Int) > b then (y : Int) else b) = b ∨
         (if (y : Int) > b then (y : Int) else b) = (y : Int)) ∧
        (y : Int) ≤ (if (y : Int) > b then (y : Int) else b) := by
      split_ifs <;> omega
    obtain ⟨Ft1, Ft2, Ft3, Ft4⟩ := Ft
    obtain ⟨Fb1, Fb2, Fb3⟩ := Fb
    have hlowpad : x32 * 32 + lowBitScan (bm.word y x32) < bm.width :=
      hpad (lowBitScan (bm.word y x32)) (by omega) hlowbit
    have hnewbit : BitBefore bm y (x32 + 1)
        (x32 * 32 + lowBitScan (bm.word y x32)) y := by
      rw [hchar]
      exact Or.inr ⟨rfl, lowBitScan (bm.word y x32), by omega, hlowbit, rfl⟩
    have hnewbitHigh : BitBefore bm y (x32 + 1)
        (x32 * 32 + highBitScan (bm.word y x32)) y := by
      rw [hchar]
      exact Or.inr ⟨rfl, highBitScan (bm.word y x32), by omega, hhighbit, rfl⟩
    refine ⟨Fl1, ?_, Ft2, by omega, by omega, by omega, ?_, ?_, ?_, ?_, ?_⟩
    · -- l' ≤ width
      rcases Fl3 with he | he
      · omega
      · rw [he]; push_cast; omega
    · -- bounds
      intro a c hbc
      rw [hchar] at hbc
      rcases hbc with hold | ⟨heq, i, hi32, hbit, rfl⟩
      · have := hbound a c hold
        omega
      · subst c
        have hilow : lowBitScan (bm.word y x32) ≤ i := by
          by_contra hcon
          push_neg at hcon
          rw [hlowmin i hcon] at hbit
          exact absurd hbit (by simp)
        have hihigh : i ≤ highBitScan (bm.word y x32) := hhighmax i hbit
        refine ⟨?_, ?_, by omega, by omega⟩
        · rcases Fl4 with h' | h' <;> push_cast at h' <;> push_cast <;> omega
        · rcases Fr3 with h' | h' <;> push_cast at h' <;> push_cast <;> omega
    · -- left attained
      rcases Fl3 with he | he
      · rw [he]
        rcases hal with h' | ⟨a, c, hbb, hae⟩
        · exact Or.inl h'
        · exact Or.inr ⟨a, c, (hchar a c).mpr (Or.inl hbb), hae⟩
      · rw [he]
        exact Or.inr ⟨x32 * 32 + lowBitScan (bm.word y x32), y, hnewbit, rfl⟩
    · -- right attained
      rcases Fr2 with he | he
      · rw [he]
        rcases har with h' | ⟨a, c, hbb, hae⟩
        · exact Or.inl h'
        · exact Or.inr ⟨a, c, (hchar a c).mpr (Or.inl hbb), hae⟩
      · rw [he]
        exact Or.inr ⟨x32 * 32 + highBitScan (bm.word y x32), y, hnewbitHigh, rfl⟩
    · -- top attained
      rcases Ft3 with he | he
      · rw [he]
        rcases hat with h' | ⟨a, c, hbb, hae⟩
        · exact Or.inl h'
        · exact Or.inr ⟨a, c, (hchar a c).mpr (Or.inl hbb), hae⟩
      · rw [he]
        exact Or.inr ⟨x32 * 32 + lowBitScan (bm.word y x32), y, hnewbit, rfl⟩
    · -- bottom attained
      rcases Fb2 with he | he
      · rw [he]
        rcases hab with h' | ⟨a, c, hbb, hae⟩
        · exact Or.inl h'
        · exact Or.inr ⟨a, c, (hchar a c).mpr (Or.inl hbb), hae⟩
      · rw [he]
        exact Or.inr ⟨x32 * 32 + lowBitScan (bm.word y x32), y, hnewbit, rfl⟩

end ZXing

namespace ZXing

theorem bitBefore_rowEnd (bm : BitMatrix) (hwf : WF bm) (y a c : Nat) :
    BitBefore bm y bm.rowSize a c ↔ BitBefore bm (y + 1) 0 a c := by
  obtain ⟨hw0, _, hrs, _, _, _⟩ := hwf
  unfold BitBefore
  constructor
  · rintro ⟨h1, h2, h3 | ⟨rfl, h4⟩⟩
    · exact ⟨h1, h2, Or.inl (by omega)⟩
    · exact ⟨h1, h2, Or.inl (by omega)⟩
  · rintro ⟨h1, h2, h3 | ⟨rfl, h4⟩⟩
    · rcases Nat.lt_or_ge c y with h | h
      · exact ⟨h1, h2, Or.inl h⟩
      · have hcy : c = y := by omega
        subst hcy
        refine ⟨h1, h2, Or.inr ⟨rfl, ?_⟩⟩
        rw [hrs]
        omega
    · omega

theorem encloseFold_row (bm : BitMatrix) (hwf : WF bm) (y : Nat)
    (hy : y < bm.height) :
    ∀ (n : Nat), n ≤ bm.rowSize → ∀ st, EncInv bm y 0 st →
      EncInv bm y n
        ((List.range n).foldl (fun s x32 => bm.encloseWord s y x32) st) := by
  intro n
  induction n with
  | zero => intro _ st h; simpa using h
  | succ n ih =>
    intro hn st h
    rw [List.range_succ, List.foldl_append]
    simp only [List.foldl_cons, List.foldl_nil]
    exact encloseWord_inv bm hwf y n hy (by omega) _ (ih (by omega) st h)

theorem encloseFold_all (bm : BitMatrix) (hwf : WF bm) :
    ∀ (m : Nat), m ≤ bm.height → ∀ st, EncInv bm 0 0 st →
      EncInv bm m 0
        ((List.range m).foldl
          (fun s y => (List.range bm.rowSize).foldl
            (fun s2 x32 => bm.encloseWord s2 y x32) s) st) := by
  intro m
  induction m with
  | zero => intro _ st h; simpa using h
  | succ m ih =>
    intro hm st h
    rw [List.range_succ, List.foldl_append]
    simp only [List.foldl_cons, List.foldl_nil]
    have hrow := encloseFold_row bm hwf m (by omega) bm.rowSize le_rfl _
      (ih (by omega) st h)
    exact encInv_of_iff bm m bm.rowSize (m + 1) 0 _
      (bitBefore_rowEnd bm hwf m) hrow

theorem encInv_init (bm : BitMatrix) :
    EncInv bm 0 0 ((bm.width : Int), (bm.height : Int), -1, -1) := by
  refine ⟨by positivity, le_rfl, by positivity, le_rfl, le_rfl, le_rfl, ?_,
    Or.inl rfl, Or.inl rfl, Or.inl rfl, Or.inl rfl⟩
  rintro a c ⟨_, _, h | ⟨_, h⟩⟩ <;> omega

/-- C9: `GetEnclosingRectangle` returns `none` exactly when the grid is
entirely clear (never a degenerate rectangle), and otherwise returns the
minimal axis-aligned rectangle `{left, top, width, height}` containing
every set bit: the rectangle contains all set bits, has positive width and
height, and each of its four edges carries a set bit. -/
theorem C9_enclosingRectangle_minimal (bm : BitMatrix) (hwf : WF bm) :
    (bm.GetEnclosingRectangle = none ↔
      ∀ x < bm.width, ∀ y < bm.height, bm.Get x y = false) ∧
    (∀ l t w h, bm.GetEnclosingRectangle = some [l, t, w, h] →
      0 < w ∧ 0 < h ∧
      (∀ x < bm.width, ∀ y < bm.height, bm.Get x y = true →
        l ≤ x ∧ x < l + w ∧ t ≤ y ∧ y < t + h) ∧
      (∃ y < bm.height, bm.Get l y = true) ∧
      (∃ y < bm.height, bm.Get (l + w - 1) y = true) ∧
      (∃ x < bm.width, bm.Get x t = true) ∧
      (∃ x < bm.width, bm.Get x (t + h - 1) = true)) := by
  have hw0 : 0 < bm.width := hwf.1
  have hh0 : 0 < bm.height := hwf.2.1
  have hbb : ∀ a c, BitBefore bm bm.height 0 a c ↔
      (a < bm.width ∧ c < bm.height ∧ bm.Get a c = true) := by
    intro a c
    unfold BitBefore
    constructor
    · rintro ⟨h1, h2, h3 | ⟨_, h4⟩⟩
      · exact ⟨h1, h3, h2⟩
      · omega
    · rintro ⟨h1, h2, h3⟩
      exact ⟨h1, h3, Or.inl h2⟩
  rcases hsteq : ((List.range bm.height).foldl
      (fun s y => (List.range bm.rowSize).foldl
        (fun s2 x32 => bm.encloseWord s2 y x32) s)
      ((bm.width : Int), (bm.height : Int), -1, -1)) with ⟨l, t, r, b⟩
  have hfin := encloseFold_all bm hwf bm.height le_rfl _ (encInv_init bm)
  rw [hsteq] at hfin
  obtain ⟨hl0, hlw, ht0, hth, hr0, hb0, hbound, hal, har, hat, hab⟩ := hfin
  have hres : bm.GetEnclosingRectangle =
      (if r < l ∨ b < t then none
       else some [l.toNat, t.toNat, (r - l + 1).toNat, (b - t + 1).toNat]) := by
    simp only [BitMatrix.GetEnclosingRectangle]
    rw [hsteq]
  rw [hres]
  by_cases hcase : r < l ∨ b < t
  · rw [if_pos hcase]
    have hclear : ∀ x < bm.width, ∀ y < bm.height, bm.Get x y = false := by
      intro x hx y hy
      cases hget : bm.Get x y with
      | false => rfl
      | true =>
        exfalso
        have := hbound x y ((hbb x y).mpr ⟨hx, hy, hget⟩)
        omega
    refine ⟨⟨fun _ => hclear, fun _ => rfl⟩, ?_⟩
    intro l' t' w h heq
    exact absurd heq (by simp)
  · rw [if_neg hcase]
    push_neg at hcase
    obtain ⟨hlr, htb⟩ := hcase
    -- the right and bottom extremes are attained (they are ≥ 0)
    have hrne : r ≠ -1 := by omega
    have hbne : b ≠ -1 := by omega
    obtain ⟨ar, cr, hbbr, haer⟩ := har.resolve_left hrne
    obtain ⟨ab2, cb, hbbb, haeb⟩ := hab.resolve_left hbne
    obtain ⟨harw, hcrh, hgetr⟩ := (hbb ar cr).mp hbbr
    obtain ⟨habw, hcbh, hgetb⟩ := (hbb ab2 cb).mp hbbb
    -- so are the left and top extremes
    have hlne : l ≠ (bm.width : Int) := by omega
    have htne : t ≠ (bm.height : Int) := by omega
    obtain ⟨al, cl, hbbl, hael⟩ := hal.resolve_left hlne
    obtain ⟨at2, ct, hbbt, haet⟩ := hat.resolve_left htne
    obtain ⟨halw, hclh, hgetl⟩ := (hbb al cl).mp hbbl
    obtain ⟨hatw, hcth, hgett⟩ := (hbb at2 ct).mp hbbt
    constructor
    · constructor
      · intro heq
        exact absurd heq (by simp)
      · intro hclear
        exfalso
        have := hclear ar harw cr hcrh
        rw [hgetr] at this
        exact absurd this (by simp)
    · intro l' t' w h heq
      have heql : l' = l.toNat ∧ t' = t.toNat ∧ w = (r - l + 1).toNat ∧
          h = (b - t + 1).toNat := by
        have := Option.some.inj heq
        simp only [List.cons.injEq, and_true] at this
        exact ⟨this.1.symm, this.2.1.symm, this.2.2.1.symm, this.2.2.2.symm⟩
      obtain ⟨rfl, rfl, rfl, rfl⟩ := heql
      refine ⟨by omega, by omega, ?_, ?_, ?_, ?_, ?_⟩
      · intro x hx y hy hget
        have := hbound x y ((hbb x y).mpr ⟨hx, hy, hget⟩)
        refine ⟨by omega, by omega, by omega, by omega⟩
      · refine ⟨cl, hclh, ?_⟩
        have hale : al = l.toNat := by omega
        rw [← hale]
        exact hgetl
      · refine ⟨cr, hcrh, ?_⟩
        have hare : ar = l.toNat + (r - l + 1).toNat - 1 := by omega
        rw [← hare]
        exact hgetr
      · refine ⟨at2, hatw, ?_⟩
        have hate : ct = t.toNat := by omega
        rw [← hate]
        exact hgett
      · refine ⟨ab2, habw, ?_⟩
        have habe : cb = t.toNat + (b - t + 1).toNat - 1 := by omega
        rw [← habe]
        exact hgetb

end ZXing

namespace ZXing

/-- Witness for C9's theorem: the spec's 5×5 example grid. -/
theorem C9_enclosingRectangle_minimal_witness :
    (m5x5Region.GetEnclosingRectangle = none ↔
      ∀ x < m5x5Region.width, ∀ y < m5x5Region.height,
        m5x5Region.Get x y = false) ∧
    (∀ l t w h, m5x5Region.GetEnclosingRectangle = some [l, t, w, h] →
      0 < w ∧ 0 < h ∧
      (∀ x < m5x5Region.width, ∀ y < m5x5Region.height,
        m5x5Region.Get x y = true → l ≤ x ∧ x < l + w ∧ t ≤ y ∧ y < t + h) ∧
      (∃ y < m5x5Region.height, m5x5Region.Get l y = true) ∧
      (∃ y < m5x5Region.height, m5x5Region.Get (l + w - 1) y = true) ∧
      (∃ x < m5x5Region.width, m5x5Region.Get x t = true) ∧
      (∃ x < m5x5Region.width, m5x5Region.Get x (t + h - 1) = true)) :=
  C9_enclosingRectangle_minimal m5x5Region (by decide)

end ZXing

namespace ZXing

/-! ## C7: the text round trip -/

theorem foldl_append_flatten {α β : Type} (f : β → List α) (l : List β) :
    ∀ init : List α,
      l.foldl (fun acc x => acc ++ f x) init = init ++ (l.map f).flatten := by
  induction l with
  | nil => intro init; simp
  | cons x xs ih =>
    intro init
    simp only [List.foldl_cons, List.map_cons, List.flatten_cons, ih,
      List.append_assoc]

/-- The token emitted for one grid cell. -/
def tokOf (s u : List Char) (b : Bool) : List Char := if b then s else u

/-- The token string of one row of bits. -/
def rowTokens (s u : List Char) (bs : List Bool) : List Char :=
  (bs.map (tokOf s u)).flatten

/-- The bits of row `y`, left to right. -/
def rowBools (bm : BitMatrix) (y : Nat) : List Bool :=
  (List.range bm.width).map (fun x => bm.Get x y)

theorem buildToString_eq (bm : BitMatrix) (s u nl : List Char) :
    bm.buildToString s u nl =
      ((List.range bm.height).map
        (fun y => rowTokens s u (rowBools bm y) ++ nl)).flatten := by
  unfold BitMatrix.buildToString
  have hrow : ∀ (y : Nat) (result : List Char),
      (List.range bm.width).foldl
        (fun result x => result ++ (if bm.Get x y then s else u)) result =
      result ++ rowTokens s u (rowBools bm y) := by
    intro y result
    rw [foldl_append_flatten (fun x => if bm.Get x y then s else u)
      (List.range bm.width) result]
    unfold rowTokens rowBools tokOf
    rw [List.map_map]
    rfl
  have hstep : (fun (result : List Char) (y : Nat) =>
      ((List.range bm.width).foldl
        (fun result x => result ++ (if bm.Get x y then s else u)) result) ++ nl) =
      (fun result y => result ++ (rowTokens s u (rowBools bm y) ++ nl)) := by
    funext result y
    rw [hrow y result, List.append_assoc]
  rw [hstep, foldl_append_flatten (fun y => rowTokens s u (rowBools bm y) ++ nl)
    (List.range bm.height) []]
  rfl

theorem parse_newline_step (s u : List Char) (c : Char) (hc : c = '\n' ∨ c = '\r')
    (rest : List Char) (fuel : Nat) (bits : List Bool) (rsp : Nat)
    (rl : Option Nat) (nr : Nat) :
    parseLoop s u (fuel + 1) (c :: rest) bits rsp rl nr =
      match flushRow bits rsp rl nr with
      | .error e => .error e
      | .ok (rsp2, rl2, nr2) => parseLoop s u fuel rest bits rsp2 rl2 nr2 := by
  simp only [parseLoop, if_pos hc]

theorem parse_tok_step (s u : List Char) (hk : u.length = s.length)
    (hpos : 0 < s.length) (hne : s ≠ u)
    (hsnl : ∀ ch ∈ s, ch ≠ '\n' ∧ ch ≠ '\r')
    (hunl : ∀ ch ∈ u, ch ≠ '\n' ∧ ch ≠ '\r')
    (b : Bool) (rest : List Char) (fuel : Nat) (bits : List Bool) (rsp : Nat)
    (rl : Option Nat) (nr : Nat) :
    parseLoop s u (fuel + 1) (tokOf s u b ++ rest) bits rsp rl nr =
      parseLoop s u fuel rest (bits ++ [b]) rsp rl nr := by
  have htoklen : (tokOf s u b).length = s.length := by
    cases b <;> simp [tokOf, hk]
  have htokne : tokOf s u b ≠ [] := by
    intro h
    rw [← List.length_eq_zero] at h
    omega
  obtain ⟨ch, tl, htok⟩ := List.exists_cons_of_ne_nil htokne
  have hch : ch ∈ tokOf s u b := by rw [htok]; exact List.mem_cons_self ch tl
  have hchnl : ¬(ch = '\n' ∨ ch = '\r') := by
    cases b with
    | true =>
      have := hsnl ch (by simpa [tokOf] using hch)
      tauto
    | false =>
      have := hunl ch (by simpa [tokOf] using hch)
      tauto
  have hsplit : tokOf s u b ++ rest = ch :: (tl ++ rest) := by
    rw [htok]; rfl
  rw [hsplit]
  have hrem : ch :: (tl ++ rest) = tokOf s u b ++ rest := hsplit.symm
  simp only [parseLoop, if_neg hchnl]
  rw [hrem]
  have hlen1 : ¬ (s.length > (tokOf s u b ++ rest).length) := by
    rw [List.length_append, htoklen]
    omega
  rw [if_neg hlen1]
  have htake_s : (tokOf s u b ++ rest).take s.length = tokOf s u b :=
    List.take_left' htoklen
  cases b with
  | true =>
    have hts : tokOf s u true = s := rfl
    rw [htake_s, hts, if_pos rfl, List.drop_left' (by rw [← hts, htoklen])]
  | false =>
    have htu : tokOf s u false = u := rfl
    have hneq : ¬ ((tokOf s u false ++ rest).take s.length = s) := by
      rw [htake_s, htu]
      intro h
      exact hne (h ▸ rfl)
    rw [if_neg hneq]
    have hlen2 : ¬ (u.length > (tokOf s u false ++ rest).length) := by
      rw [List.length_append, htoklen]
      omega
    rw [if_neg hlen2]
    have htake_u : (tokOf s u false ++ rest).take u.length = u := by
      have : (tokOf s u false).length = u.length := by simp [tokOf]
      exact List.take_left' this
    rw [htake_u, if_pos rfl, List.drop_left' (by simp [tokOf])]

theorem parse_tokens (s u : List Char) (hk : u.length = s.length)
    (hpos : 0 < s.length) (hne : s ≠ u)
    (hsnl : ∀ ch ∈ s, ch ≠ '\n' ∧ ch ≠ '\r')
    (hunl : ∀ ch ∈ u, ch ≠ '\n' ∧ ch ≠ '\r') (bs : List Bool) :
    ∀ (fuel : Nat) (rest : List Char) (bits : List Bool) (rsp : Nat)
      (rl : Option Nat) (nr : Nat),
      parseLoop s u (fuel + bs.length) (rowTokens s u bs ++ rest) bits rsp rl nr =
        parseLoop s u fuel rest (bits ++ bs) rsp rl nr := by
  induction bs with
  | nil => intro fuel rest bits rsp rl nr; simp [rowTokens]
  | cons b bs ih =>
    intro fuel rest bits rsp rl nr
    have hflat : rowTokens s u (b :: bs) ++ rest =
        tokOf s u b ++ (rowTokens s u bs ++ rest) := by
      simp [rowTokens, List.append_assoc]
    rw [hflat]
    have hfuel : fuel + (b :: bs).length = (fuel + bs.length) + 1 := by
      simp
      omega
    rw [hfuel, parse_tok_step s u hk hpos hne hsnl hunl b _ _ _ _ _ _, ih]
    rw [List.append_assoc]
    rfl

end ZXing

namespace ZXing

theorem parse_newline_ok (s u : List Char) (c : Char) (hc : c = '\n' ∨ c = '\r')
    (rest : List Char) (fuel : Nat) (bits : List Bool) (rsp : Nat)
    (rl : Option Nat) (nr : Nat) (rsp2 : Nat) (rl2 : Option Nat) (nr2 : Nat)
    (hf : flushRow bits rsp rl nr = .ok (rsp2, rl2, nr2)) :
    parseLoop s u (fuel + 1) (c :: rest) bits rsp rl nr =
      parseLoop s u fuel rest bits rsp2 rl2 nr2 := by
  rw [parse_newline_step s u c hc rest fuel bits rsp rl nr, hf]

theorem parse_rows (s u : List Char) (hk : u.length = s.length)
    (hpos : 0 < s.length) (hne : s ≠ u)
    (hsnl : ∀ ch ∈ s, ch ≠ '\n' ∧ ch ≠ '\r')
    (hunl : ∀ ch ∈ u, ch ≠ '\n' ∧ ch ≠ '\r') (w : Nat) (hw : 0 < w) :
    ∀ (rows : List (List Bool)), (∀ row ∈ rows, row.length = w) →
    ∀ (fuel : Nat) (bits : List Bool) (nr : Nat),
      parseLoop s u (fuel + 1 + (rows.map (fun r => r.length + 1)).sum)
        ((rows.map (fun r => rowTokens s u r ++ ['\n'])).flatten)
        bits bits.length (some w) nr =
      .ok (bits ++ rows.flatten, (bits ++ rows.flatten).length, some w,
        nr + rows.length) := by
  intro rows
  induction rows with
  | nil =>
    intro _ fuel bits nr
    simp only [List.map_nil, List.sum_nil, List.flatten_nil, List.append_nil,
      List.length_nil, Nat.add_zero]
    simp [parseLoop]
  | cons row rest ih =>
    intro hrows fuel bits nr
    have hrowlen : row.length = w := hrows row (by simp)
    have hrestlen : ∀ r ∈ rest, r.length = w := fun r hr => hrows r (by simp [hr])
    have hinput : ((row :: rest).map (fun r => rowTokens s u r ++ ['\n'])).flatten =
        rowTokens s u row ++
          ('\n' :: ((rest.map (fun r => rowTokens s u r ++ ['\n'])).flatten)) := by
      simp [List.append_assoc]
    rw [hinput]
    have hfuel : fuel + 1 + ((row :: rest).map (fun r => r.length + 1)).sum =
        ((fuel + 1 + (rest.map (fun r => r.length + 1)).sum) + 1) + row.length := by
      simp
      omega
    have hflush : flushRow (bits ++ row) bits.length (some w) nr =
        .ok ((bits ++ row).length, some w, nr + 1) := by
      have h1 : 0 < row.length := by omega
      simp [flushRow, h1, hrowlen]
      omega
    rw [hfuel,
      parse_tokens s u hk hpos hne hsnl hunl row _ _ _ _ _ _,
      parse_newline_ok s u '\n' (Or.inl rfl) _ _ _ _ _ _ _ _ _ hflush]
    have := ih hrestlen fuel (bits ++ row) (nr + 1)
    rw [this]
    simp [List.append_assoc]
    omega

theorem parse_all (s u : List Char) (hk : u.length = s.length)
    (hpos : 0 < s.length) (hne : s ≠ u)
    (hsnl : ∀ ch ∈ s, ch ≠ '\n' ∧ ch ≠ '\r')
    (hunl : ∀ ch ∈ u, ch ≠ '\n' ∧ ch ≠ '\r') (w : Nat) (hw : 0 < w)
    (rows : List (List Bool)) (hnonempty : rows ≠ [])
    (hrows : ∀ row ∈ rows, row.length = w) (fuel : Nat) :
    parseLoop s u (fuel + 1 + (rows.map (fun r => r.length + 1)).sum)
      ((rows.map (fun r => rowTokens s u r ++ ['\n'])).flatten) [] 0 none 0 =
    .ok (rows.flatten, rows.flatten.length, some w, rows.length) := by
  obtain ⟨row, rest, rfl⟩ := List.exists_cons_of_ne_nil hnonempty
  have hrowlen : row.length = w := hrows row (by simp)
  have hrestlen : ∀ r ∈ rest, r.length = w := fun r hr => hrows r (by simp [hr])
  have hinput : ((row :: rest).map (fun r => rowTokens s u r ++ ['\n'])).flatten =
      rowTokens s u row ++
        ('\n' :: ((rest.map (fun r => rowTokens s u r ++ ['\n'])).flatten)) := by
    simp [List.append_assoc]
  rw [hinput]
  have hfuel : fuel + 1 + ((row :: rest).map (fun r => r.length + 1)).sum =
      ((fuel + 1 + (rest.map (fun r => r.length + 1)).sum) + 1) + row.length := by
    simp
    omega
  have hflush : flushRow ([] ++ row) 0 none 0 =
      .ok (([] ++ row).length, some w, 1) := by
    have h1 : 0 < row.length := by omega
    simp [flushRow, h1, hrowlen]
    omega
  rw [hfuel,
    parse_tokens s u hk hpos hne hsnl hunl row _ _ _ _ _ _,
    parse_newline_ok s u '\n' (Or.inl rfl) _ _ _ _ _ _ _ _ _ hflush]
  have hlen0 : ([] ++ row : List Bool).length = row.length := by simp
  have := parse_rows s u hk hpos hne hsnl hunl w hw rest hrestlen fuel
    ([] ++ row) 1
  rw [hlen0] at this ⊢
  rw [show ([] ++ row : List Bool) = row from by simp] at this ⊢
  rw [this]
  simp
  omega

end ZXing

namespace ZXing

theorem rowTokens_length (s u : List Char) (hk : u.length = s.length)
    (bs : List Bool) : (rowTokens s u bs).length = bs.length * s.length := by
  induction bs with
  | nil => simp [rowTokens]
  | cons b bs ih =>
    have htok : (tokOf s u b).length = s.length := by cases b <;> simp [tokOf, hk]
    simp only [rowTokens, List.map_cons, List.flatten_cons, List.length_append,
      List.length_cons] at *
    rw [htok, ih]
    ring

theorem flatten_map_length {β : Type} (f : β → List Bool) (w : Nat) :
    ∀ L : List β, (∀ x ∈ L, (f x).length = w) →
      ((L.map f).flatten).length = L.length * w := by
  intro L
  induction L with
  | nil => intro _; simp
  | cons x xs ih =>
    intro hf
    simp only [List.map_cons, List.flatten_cons, List.length_append,
      List.length_cons]
    rw [hf x (by simp), ih (fun a ha => hf a (by simp [ha]))]
    ring

theorem fuel_lower_bound (s u : List Char) (hk : u.length = s.length)
    (hpos : 0 < s.length) (rows : List (List Bool)) :
    (rows.map (fun r => r.length + 1)).sum ≤
      ((rows.map (fun r => rowTokens s u r ++ ['\n'])).flatten).length := by
  induction rows with
  | nil => simp
  | cons row rest ih =>
    simp only [List.map_cons, List.flatten_cons, List.length_append,
      List.sum_cons, List.length_cons]
    have h1 : row.length ≤ (rowTokens s u row).length := by
      rw [rowTokens_length s u hk]
      exact Nat.le_mul_of_pos_right _ hpos
    omega


end ZXing

namespace ZXing
/-- Index `i` of the flattened row-major bit list is bit `(i % w, i / w)`. -/
theorem flat_getD (bm : BitMatrix) (hw : 0 < bm.width) :
    ∀ (m : Nat), m ≤ bm.height → ∀ i < m * bm.width,
      (((List.range m).map (rowBools bm)).flatten).getD i false =
        bm.Get (i % bm.width) (i / bm.width) := by
  intro m
  induction m with
  | zero => intro _ i hi; omega
  | succ m ih =>
    intro hm i hi
    have hmul : (m + 1) * bm.width = m * bm.width + bm.width := by ring
    rw [List.range_succ, List.map_append, List.flatten_append]
    have hlen : (((List.range m).map (rowBools bm)).flatten).length =
        m * bm.width := by
      rw [flatten_map_length (rowBools bm) bm.width (List.range m)
        (fun y _ => by simp [rowBools])]
      simp
    rcases Nat.lt_or_ge i (m * bm.width) with hcase | hcase
    · rw [List.getD_eq_getElem?_getD, List.getElem?_append_left (by omega),
        ← List.getD_eq_getElem?_getD]
      exact ih (by omega) i hcase
    · rw [List.getD_eq_getElem?_getD, List.getElem?_append_right (by omega),
        ← List.getD_eq_getElem?_getD]
      rw [hlen]
      simp only [List.map_cons, List.map_nil, List.flatten_cons,
        List.flatten_nil, List.append_nil]
      have hx : i - m * bm.width < bm.width := by omega
      have hsplit : i = (i - m * bm.width) + m * bm.width := by omega
      have hgd : (rowBools bm m).getD (i - m * bm.width) false =
          bm.Get (i - m * bm.width) m := by
        unfold rowBools
        rw [List.getD_eq_getElem?_getD]
        rw [List.getElem?_map]
        rw [List.getElem?_range hx]
        rfl
      rw [hgd]
      have h1 : i % bm.width = i - m * bm.width := by
        conv_lhs => rw [hsplit]
        rw [Nat.add_mul_mod_self_right]
        exact Nat.mod_eq_of_lt hx
      have h2 : i / bm.width = m := by
        conv_lhs => rw [hsplit]
        rw [Nat.add_mul_div_right _ _ hw, Nat.div_eq_of_lt hx, Nat.zero_add]
      rw [h1, h2]


end ZXing

namespace ZXing

theorem parseFold_sameShape (flat : List Bool) (w : Nat) :
    ∀ (n : Nat) (m0 : BitMatrix),
      SameShape
        ((List.range n).foldl
          (fun m i => if flat.getD i false then m.Set (i % w) (i / w) else m) m0)
        m0 := by
  intro n
  induction n with
  | zero => intro m0; exact sameShape_refl m0
  | succ n ih =>
    intro m0
    rw [List.range_succ, List.foldl_append]
    simp only [List.foldl_cons, List.foldl_nil]
    by_cases hb : flat.getD n false
    · rw [if_pos hb]
      exact sameShape_trans (sameShape_Set _ (n % w) (n / w)) (ih m0)
    · rw [if_neg hb]
      exact ih m0

/-- The conditional-`Set` reconstruction loop of `ParseStringToBitMatrix`,
characterized bit by bit. -/
theorem get_parseFold (flat : List Bool) (w : Nat) (hw : 0 < w) :
    ∀ (n : Nat) (m0 : BitMatrix) (x y : Nat),
      (∀ i < n, i / w < m0.bits.length ∧
        (i % w) / 32 < (m0.bits.getD (i / w) []).length) →
      (((List.range n).foldl
        (fun m i => if flat.getD i false then m.Set (i % w) (i / w) else m)
        m0).Get x y) =
      (m0.Get x y ||
        (decide (y * w + x < n) && decide (x < w) && flat.getD (y * w + x) false)) := by
  intro n
  induction n with
  | zero =>
    intro m0 x y _
    simp
  | succ n ih =>
    intro m0 x y hbounds
    rw [List.range_succ, List.foldl_append]
    simp only [List.foldl_cons, List.foldl_nil]
    have hshape := parseFold_sameShape flat w n m0
    have hrec := ih m0 x y (fun i hi => hbounds i (by omega))
    have hmodlt : n % w < w := Nat.mod_lt n hw
    by_cases hb : flat.getD n false
    · rw [if_pos hb]
      rw [get_Set _ (n % w) (n / w) x y
        (by rw [hshape.2.2.2.1]; exact (hbounds n (by omega)).1)
        (by rw [hshape.2.2.2.2 (n / w)]; exact (hbounds n (by omega)).2)]
      rw [hrec]
      have hdm : w * (n / w) + n % w = n := Nat.div_add_mod n w
      by_cases hx : x < w
      · by_cases heqn : y * w + x = n
        · have hxe : x = n % w := by
            have : n % w = x := by
              rw [← heqn, show y * w + x = x + y * w from by ring,
                Nat.add_mul_mod_self_right]
              exact Nat.mod_eq_of_lt hx
            omega
          have hye : y = n / w := by
            have : n / w = y := by
              rw [← heqn, show y * w + x = x + y * w from by ring,
                Nat.add_mul_div_right _ _ hw, Nat.div_eq_of_lt hx,
                Nat.zero_add]
            omega
          have d1 : decide (n < n) = false := by simp
          have d2 : decide (n < n + 1) = true := by simp
          rw [heqn]
          simp only [hxe, hye, d1, d2]
          simp [hxe, hye, hb, hmodlt, d1, d2]
          right
          rw [← List.getD_eq_getElem?_getD]
          exact hb
        · have hiff : (y * w + x < n + 1) ↔ (y * w + x < n) := by omega
          have hne2 : ¬(x = n % w ∧ y = n / w) := by
            rintro ⟨h1, h2⟩
            apply heqn
            rw [h1, h2, Nat.mul_comm]
            omega
          by_cases hxe : x = n % w
          · have hye : ¬ y = n / w := fun h => hne2 ⟨hxe, h⟩
            simp [hye, hiff]
          · simp [hxe, hiff]
      · have hxx : ¬ x = n % w := by omega
        simp [hxx, hx]
    · rw [if_neg hb]
      rw [hrec]
      by_cases heqn : y * w + x = n
      · rw [heqn]
        have hb2 : flat.getD n false = false := by
          cases hgb : flat.getD n false
          · rfl
          · exact absurd hgb hb
        have hb3 : flat[n]?.getD false = false := by
          rw [← List.getD_eq_getElem?_getD]
          exact hb2
        simp [hb2, hb3]
      · have hiff : (y * w + x < n + 1) ↔ (y * w + x < n) := by omega
        simp [hiff]

end ZXing

namespace ZXing

theorem getD_eq_getElem_of_lt {α : Type} (l : List α) (i : Nat) (d : α)
    (h : i < l.length) : l.getD i d = l[i] := by
  rw [List.getD_eq_getElem?_getD, List.getElem?_eq_getElem h]
  rfl

theorem bitMatrix_eq_of_fields (m1 m2 : BitMatrix) (h1 : m1.width = m2.width)
    (h2 : m1.height = m2.height) (h3 : m1.rowSize = m2.rowSize)
    (h4 : m1.bits = m2.bits) : m1 = m2 := by
  cases m1
  cases m2
  simp_all

theorem word_newBitMatrixZero (w h y x32 : Nat) :
    (⟨w, h, (w + 31) / 32,
      List.replicate h (List.replicate ((w + 31) / 32) 0)⟩ : BitMatrix).word y x32 = 0 := by
  show ((List.replicate h (List.replicate ((w + 31) / 32) 0)).getD y []).getD x32 0 = 0
  by_cases hy : y < h
  · rw [getD_eq_getElem_of_lt _ y [] (by simpa using hy), List.getElem_replicate]
    by_cases hx : x32 < (w + 31) / 32
    · rw [getD_eq_getElem_of_lt _ x32 0 (by simpa using hx), List.getElem_replicate]
    · have hinner : (List.replicate ((w + 31) / 32) (0 : Nat)).getD x32 0 = 0 := by
        rw [List.getD_eq_getElem?_getD, List.getElem?_eq_none (by simpa using hx)]
        rfl
      exact hinner
  · have houter : (List.replicate h (List.replicate ((w + 31) / 32) (0 : Nat))).getD y [] = [] := by
      rw [List.getD_eq_getElem?_getD, List.getElem?_eq_none (by simpa using hy)]
      rfl
    rw [houter]
    rfl

theorem get_newBitMatrixZero (w h x y : Nat) :
    (⟨w, h, (w + 31) / 32,
      List.replicate h (List.replicate ((w + 31) / 32) 0)⟩ : BitMatrix).Get x y =
      false := by
  rw [get_eq_testBit, word_newBitMatrixZero]
  simp

theorem word_lt_W32_Set (m : BitMatrix) (x y : Nat)
    (hm : ∀ y2 x2, m.word y2 x2 < W32) :
    ∀ y2 x2, (m.Set x y).word y2 x2 < W32 := by
  intro y2 x2
  have hsh : 1 <<< (x % 32) < W32 := by
    rw [Nat.shiftLeft_eq, one_mul, W32_eq]
    exact Nat.pow_lt_pow_right (by omega) (by omega)
  have hor : m.word y (x / 32) ||| (1 <<< (x % 32)) < W32 := by
    rw [W32_eq]
    exact Nat.or_lt_two_pow (by rw [← W32_eq]; exact hm y (x / 32))
      (by rw [← W32_eq]; exact hsh)
  simp only [BitMatrix.Set, BitMatrix.setWord, BitMatrix.word]
  rw [getD_set_list]
  by_cases h1 : y = y2 ∧ y < m.bits.length
  · rw [if_pos h1]
    rw [getD_set_list]
    by_cases h2 : x / 32 = x2 ∧ x / 32 < (m.bits.getD y []).length
    · rw [if_pos h2]
      exact hor
    · rw [if_neg h2]
      exact hm y x2
  · rw [if_neg h1]
    exact hm y2 x2

theorem wordsLt_parseFold (flat : List Bool) (w : Nat) :
    ∀ (n : Nat) (m0 : BitMatrix), (∀ y x2, m0.word y x2 < W32) →
      ∀ y x2,
        ((List.range n).foldl
          (fun m i => if flat.getD i false then m.Set (i % w) (i / w) else m)
          m0).word y x2 < W32 := by
  intro n
  induction n with
  | zero => intro m0 hm y x2; exact hm y x2
  | succ n ih =>
    intro m0 hm y x2
    rw [List.range_succ, List.foldl_append]
    simp only [List.foldl_cons, List.foldl_nil]
    by_cases hb : flat.getD n false
    · rw [if_pos hb]
      exact word_lt_W32_Set _ (n % w) (n / w) (fun y2 x3 => ih m0 hm y2 x3) y x2
    · rw [if_neg hb]
      exact ih m0 hm y x2

/-- C7 (amended): the text round trip holds for every well-formed grid and
every pair of distinct tokens of equal positive length that contain
neither `\n` nor `\r`:
`Parse(ToString(grid, set, unset), set, unset)` returns the original grid. -/
theorem C7_parse_toString_roundTrip (bm : BitMatrix) (s u : List Char)
    (hwf : WF bm) (hk : u.length = s.length) (hpos : 0 < s.length)
    (hne : s ≠ u) (hsnl : ∀ ch ∈ s, ch ≠ '\n' ∧ ch ≠ '\r')
    (hunl : ∀ ch ∈ u, ch ≠ '\n' ∧ ch ≠ '\r') :
    ParseStringToBitMatrix (bm.ToStr s u) s u = .ok bm := by
  obtain ⟨hw0, hh0, hrs, hlen, hrows, hwords⟩ := hwf
  have hrowlen : ∀ row ∈ (List.range bm.height).map (rowBools bm),
      row.length = bm.width := by
    intro row hrow
    obtain ⟨y, _, rfl⟩ := List.mem_map.mp hrow
    simp [rowBools]
  have hinput : bm.ToStr s u =
      (((List.range bm.height).map (rowBools bm)).map
        (fun r => rowTokens s u r ++ ['\n'])).flatten := by
    unfold BitMatrix.ToStr
    rw [buildToString_eq, List.map_map]
    rfl
  have hrowsne : (List.range bm.height).map (rowBools bm) ≠ [] := by
    simp only [ne_eq, List.map_eq_nil_iff, List.range_eq_nil]
    omega
  have hrowslen : ((List.range bm.height).map (rowBools bm)).length = bm.height := by
    simp
  have hflatlen : (((List.range bm.height).map (rowBools bm)).flatten).length =
      bm.height * bm.width := by
    rw [flatten_map_length (rowBools bm) bm.width (List.range bm.height)
      (fun y _ => by simp [rowBools])]
    simp
  have hfuelge : (((List.range bm.height).map (rowBools bm)).map
      (fun r => r.length + 1)).sum ≤ (bm.ToStr s u).length := by
    rw [hinput]
    exact fuel_lower_bound s u hk hpos _
  have hmain : parseLoop s u ((bm.ToStr s u).length + 1) (bm.ToStr s u) [] 0 none 0 =
      .ok (((List.range bm.height).map (rowBools bm)).flatten,
        (((List.range bm.height).map (rowBools bm)).flatten).length,
        some bm.width, bm.height) := by
    have hfueleq : (bm.ToStr s u).length + 1 =
        ((bm.ToStr s u).length -
          (((List.range bm.height).map (rowBools bm)).map
            (fun r => r.length + 1)).sum) + 1 +
          (((List.range bm.height).map (rowBools bm)).map
            (fun r => r.length + 1)).sum := by
      omega
    rw [hfueleq]
    conv_lhs => rw [hinput]
    rw [parse_all s u hk hpos hne hsnl hunl bm.width hw0 _ hrowsne hrowlen _]
    rw [hrowslen]
  have hflush2 : flushRow (((List.range bm.height).map (rowBools bm)).flatten)
      ((((List.range bm.height).map (rowBools bm)).flatten).length)
      (some bm.width) bm.height =
      .ok ((((List.range bm.height).map (rowBools bm)).flatten).length,
        some bm.width, bm.height) := by
    simp [flushRow]
  have hnew : NewBitMatrix bm.width bm.height =
      .ok ⟨bm.width, bm.height, (bm.width + 31) / 32,
        List.replicate bm.height (List.replicate ((bm.width + 31) / 32) 0)⟩ := by
    unfold NewBitMatrix
    rw [if_neg (by omega)]
  simp only [ParseStringToBitMatrix, hmain, hflush2, hnew]
  congr 1
  -- the reconstruction fold equals the original matrix
  set Z : BitMatrix := ⟨bm.width, bm.height, (bm.width + 31) / 32,
    List.replicate bm.height (List.replicate ((bm.width + 31) / 32) 0)⟩ with hZ
  set flat : List Bool := ((List.range bm.height).map (rowBools bm)).flatten
    with hflat
  have hZrowlen : ∀ y2, (Z.bits.getD y2 []).length =
      if y2 < bm.height then (bm.width + 31) / 32 else 0 := by
    intro y2
    rw [hZ]
    simp only []
    rw [List.getD_eq_getElem?_getD, List.getElem?_replicate]
    by_cases hy2 : y2 < bm.height
    · rw [if_pos hy2, if_pos hy2]
      simp
    · rw [if_neg hy2, if_neg hy2]
      rfl
  have hbounds : ∀ i < flat.length, i / bm.width < Z.bits.length ∧
      (i % bm.width) / 32 < (Z.bits.getD (i / bm.width) []).length := by
    intro i hi
    rw [hflatlen] at hi
    have hdiv : i / bm.width < bm.height := by
      rw [Nat.div_lt_iff_lt_mul hw0]
      omega
    constructor
    · rw [hZ]
      simpa using hdiv
    · rw [hZrowlen, if_pos hdiv]
      have hmod : i % bm.width < bm.width := Nat.mod_lt i hw0
      omega
  have hZwlt : ∀ y2 x2, Z.word y2 x2 < W32 := by
    intro y2 x2
    rw [hZ, word_newBitMatrixZero]
    rw [W32_eq]
    positivity
  have hword : ∀ y2 < bm.height, ∀ x2 < bm.rowSize,
      ((List.range flat.length).foldl
        (fun m i => if flat.getD i false then m.Set (i % bm.width) (i / bm.width)
          else m) Z).word y2 x2 = bm.word y2 x2 := by
    intro y2 hy2 x2 hx2
    apply Nat.eq_of_testBit_eq
    intro j
    rcases Nat.lt_or_ge j 32 with hj | hj
    · have hda : (x2 * 32 + j) / 32 = x2 := by omega
      have hma : (x2 * 32 + j) % 32 = j := by omega
      have hXw : ∀ m : BitMatrix, m.Get (x2 * 32 + j) y2 =
          (m.word y2 x2).testBit j := by
        intro m
        rw [get_eq_testBit, hda, hma]
      rw [← hXw, ← hXw]
      rw [get_parseFold flat bm.width hw0 flat.length Z (x2 * 32 + j) y2 hbounds]
      rw [hZ, get_newBitMatrixZero]
      rcases Nat.lt_or_ge (x2 * 32 + j) bm.width with haw | haw
      · have hywa : y2 * bm.width + (x2 * 32 + j) < bm.height * bm.width := by
          have hstep : (y2 + 1) * bm.width ≤ bm.height * bm.width :=
            Nat.mul_le_mul_right _ (by omega)
          have hand : (y2 + 1) * bm.width = y2 * bm.width + bm.width := by ring
          omega
      -- flat indexed at the row-major position gives the original bit
        have hgd := flat_getD bm hw0 bm.height le_rfl
          (y2 * bm.width + (x2 * 32 + j)) hywa
        have hidxm : (y2 * bm.width + (x2 * 32 + j)) % bm.width = x2 * 32 + j := by
          rw [show y2 * bm.width + (x2 * 32 + j) =
            (x2 * 32 + j) + y2 * bm.width from by ring,
            Nat.add_mul_mod_self_right]
          exact Nat.mod_eq_of_lt haw
        have hidxd : (y2 * bm.width + (x2 * 32 + j)) / bm.width = y2 := by
          rw [show y2 * bm.width + (x2 * 32 + j) =
            (x2 * 32 + j) + y2 * bm.width from by ring,
            Nat.add_mul_div_right _ _ hw0, Nat.div_eq_of_lt haw, Nat.zero_add]
        rw [hidxm, hidxd] at hgd
        rw [← hflat] at hgd
        rw [hgd]
        have d1 : decide (y2 * bm.width + (x2 * 32 + j) < flat.length) = true := by
          rw [hflatlen]
          simp only [decide_eq_true_eq]
          exact hywa
        have d2 : decide (x2 * 32 + j < bm.width) = true := by
          simp only [decide_eq_true_eq]
          exact haw
        rw [d1, d2]
        simp
      · have d2 : decide (x2 * 32 + j < bm.width) = false := by
          simp only [decide_eq_false_iff_not]
          omega
        rw [d2]
        simp only [Bool.and_false, Bool.false_and, Bool.or_false, Bool.false_or]
        cases hbg : (bm.word y2 x2).testBit j with
        | false => rw [hXw bm, hbg]
        | true =>
          exfalso
          have := (hwords y2 hy2 x2 hx2).2 j hj hbg
          omega
    · rw [testBit_false_of_ge_32 _ j
        (wordsLt_parseFold flat bm.width flat.length Z hZwlt y2 x2) hj,
        testBit_false_of_ge_32 _ j ((hwords y2 hy2 x2 hx2).1) hj]
  have hshape := parseFold_sameShape flat bm.width flat.length Z
  apply bitMatrix_eq_of_fields
  · rw [hshape.1, hZ]
  · rw [hshape.2.1, hZ]
  · rw [hshape.2.2.1, hZ]
    exact hrs.symm
  · apply List.ext_getElem
    · rw [hshape.2.2.2.1, hZ]
      simp only [List.length_replicate]
      exact hlen.symm
    · intro y2 hy2a hy2b
      have hy2 : y2 < bm.height := by
        rw [hlen] at hy2b
        exact hy2b
      apply List.ext_getElem
      · have h1 := hshape.2.2.2.2 y2
        rw [hZrowlen, if_pos hy2] at h1
        have h2 : (((List.range flat.length).foldl
            (fun m i => if flat.getD i false then
              m.Set (i % bm.width) (i / bm.width) else m) Z).bits.getD y2 []).length =
            (((List.range flat.length).foldl
            (fun m i => if flat.getD i false then
              m.Set (i % bm.width) (i / bm.width) else m) Z).bits[y2]).length := by
          rw [getD_eq_getElem_of_lt]
        rw [← h2, h1]
        have h3 : (bm.bits.getD y2 []).length = (bm.bits[y2]).length := by
          rw [getD_eq_getElem_of_lt]
        rw [← h3, hrows y2 hy2, hrs]
      · intro x2 hx2a hx2b
        have hx2 : x2 < bm.rowSize := by
          have h3 : (bm.bits.getD y2 []).length = (bm.bits[y2]).length := by
            rw [getD_eq_getElem_of_lt]
          rw [← h3, hrows y2 hy2] at hx2b
          exact hx2b
        have hw2 := hword y2 hy2 x2 hx2
        unfold BitMatrix.word at hw2
        rw [getD_eq_getElem_of_lt _ y2 [] (by
            rw [hshape.2.2.2.1, hZ]
            simpa using hy2)] at hw2
        rw [getD_eq_getElem_of_lt _ y2 [] (by rw [hlen]; exact hy2)] at hw2
        rw [getD_eq_getElem_of_lt _ x2 0 hx2a] at hw2
        rw [getD_eq_getElem_of_lt _ x2 0 hx2b] at hw2
        exact hw2

end ZXing

namespace ZXing

/-- Witness for C7's amended theorem: the 5×5 example grid with single-char
tokens `"X"` and `" "`. -/
theorem C7_parse_toString_roundTrip_witness :
    ParseStringToBitMatrix (m5x5Region.ToStr ['X'] [' ']) ['X'] [' '] =
      .ok m5x5Region :=
  C7_parse_toString_roundTrip m5x5Region ['X'] [' '] (by decide) (by decide)
    (by decide) (by decide) (by decide) (by decide)

end ZXing
